import Mathlib

/-!
Verification development for the rustgbot repository.

Shallow embedding of:
- the caption truncator (`src/common/src/lib.rs`, `substring_desc_with_truncation`;
  `src/processor/nga/src/utils.rs`, `substring_desc`);
- the NGA BBCode parser and content pipeline (`src/processor/nga/src/bbcode.rs`,
  `src/processor/nga/src/page.rs`, `src/processor/nga/src/utils.rs`);
- the media-group download fallback (`src/rustgbot/src/bot.rs`,
  `send_media_group_with_download`).

Strings are modelled as `List Char`, matching the `Vec<char>` representation
the parser itself uses; all length and slicing arithmetic in the sources is
over Unicode code points, as here.
-/

namespace Rustgbot

/-! ## List scanning primitives

Small executable primitives used throughout the embedding; they stand for
the corresponding `while`/`find` idioms of the source. -/

/-- Index of the first element satisfying `p` (the `while !p { i += 1 }`
scanning idiom of the source). -/
def firstIdx (p : Char → Bool) : List Char → Option Nat
  | [] => none
  | a :: t => if p a then some 0 else (firstIdx p t).map (· + 1)

/-- Whether `pat` is a prefix of `cs` (Rust `str::starts_with` /
`strip_prefix` test). -/
def isPre : List Char → List Char → Bool
  | [], _ => true
  | _ :: _, [] => false
  | a :: t, b :: u => a == b && isPre t u

/-- Index of the first occurrence of `pat` as a contiguous run in `cs`
(Rust `str::find` / the scanning step of `Regex::find_iter` on a literal
prefix). -/
def firstRunIdx (pat : List Char) (cs : List Char) : Option Nat :=
  if isPre pat cs then some 0
  else
    match cs with
    | [] => none
    | _ :: t => (firstRunIdx pat t).map (· + 1)

/-- Rust `str::contains` for a literal pattern. -/
def hasRun (pat cs : List Char) : Bool :=
  (firstRunIdx pat cs).isSome

/-- `List.mapM` over `Option`, written out structurally so that it computes
in the kernel and unfolds cleanly in proofs. -/
def optMapList (g : List Char → Option (List Char)) :
    List (List Char) → Option (List (List Char))
  | [] => some []
  | a :: t =>
    match g a, optMapList g t with
    | some b, some u => some (b :: u)
    | _, _ => none

/-! ## Whitespace and trimming (Rust `str::trim`) -/

/-- Rust `char::is_whitespace`: the Unicode `White_Space` property.
The code-point list is fixed by Unicode and used by `str::trim`. -/
def rustIsWhitespace (c : Char) : Bool :=
  c.toNat == 0x09 || c.toNat == 0x0A || c.toNat == 0x0B || c.toNat == 0x0C ||
  c.toNat == 0x0D || c.toNat == 0x20 || c.toNat == 0x85 || c.toNat == 0xA0 ||
  c.toNat == 0x1680 || (0x2000 ≤ c.toNat && c.toNat ≤ 0x200A) ||
  c.toNat == 0x2028 || c.toNat == 0x2029 || c.toNat == 0x202F ||
  c.toNat == 0x205F || c.toNat == 0x3000

/-- Leading-whitespace removal (half of Rust `str::trim`). -/
def trimLeftRust (s : List Char) : List Char :=
  s.dropWhile rustIsWhitespace

/-- Trailing-whitespace removal (the other half of Rust `str::trim`). -/
def trimRightRust (s : List Char) : List Char :=
  (s.reverse.dropWhile rustIsWhitespace).reverse

/-- Rust `str::trim`: remove leading and trailing whitespace. -/
def rustTrim (s : List Char) : List Char :=
  trimRightRust (trimLeftRust s)

/-! ## The caption truncator

From `src/common/src/lib.rs`:

    pub const SUMMARY_MAX_LENGTH: usize = 600;
    pub const SUMMARY_MAX_MAX_LENGTH: usize = 800;
    pub fn substring_desc_with_truncation(desc: &str, should_truncate: bool) -> String

and the structurally identical `substring_desc` of
`src/processor/nga/src/utils.rs` with limits 800/1000.  Both collect the
string into a `Vec<char>`, so all indices below are code-point indices. -/

def SUMMARY_MAX_LENGTH : Nat := 600

def SUMMARY_MAX_MAX_LENGTH : Nat := 800

def NGA_SUMMARY_MAX_LENGTH : Nat := 800

def NGA_SUMMARY_MAX_MAX_LENGTH : Nat := 1000

/-- First index `i ≥ start` with `cs[i] = '\n'`, as in the
`for (i, c) in chars.iter().enumerate().skip(limit)` loop of the source. -/
def firstNewlineFrom (cs : List Char) (start : Nat) : Option Nat :=
  (firstIdx (fun c => c == '\n') (cs.drop start)).map (· + start)

/-- Common body of the two truncators, parameterised by the soft and hard
limits.  Mirrors the source line by line: if the code-point count is within
`soft`, return the trimmed text; otherwise look for the first newline at or
after `soft`; cut there when it lies before `hard`, else cut at `soft` and
append the two-code-point ellipsis `……`. -/
def substring_desc_core (soft hard : Nat) (desc : List Char) : List Char :=
  if desc.length ≤ soft then
    rustTrim desc
  else
    match firstNewlineFrom desc soft with
    | some pos =>
      if pos < hard then
        rustTrim (desc.take pos)
      else
        rustTrim (desc.take soft) ++ ['…', '…']
    | none =>
      rustTrim (desc.take soft) ++ ['…', '…']

/-- `src/common/src/lib.rs`, `substring_desc_with_truncation`. -/
def substring_desc_with_truncation (desc : List Char) (should_truncate : Bool) :
    List Char :=
  if !should_truncate then rustTrim desc
  else substring_desc_core SUMMARY_MAX_LENGTH SUMMARY_MAX_MAX_LENGTH desc

/-- `src/processor/nga/src/utils.rs`, `substring_desc` (limits 800/1000). -/
def substring_desc_nga (desc : List Char) : List Char :=
  substring_desc_core NGA_SUMMARY_MAX_LENGTH NGA_SUMMARY_MAX_MAX_LENGTH desc

/-! ## Trimming lemmas -/

/-- A string with no leading whitespace (empty, or non-whitespace head). -/
def noLeadWS : List Char → Bool
  | [] => true
  | a :: _ => !rustIsWhitespace a

/-- A string with no trailing whitespace. -/
def noTrailWS (s : List Char) : Bool :=
  noLeadWS s.reverse

theorem noLeadWS_dropWhile (l : List Char) :
    noLeadWS (l.dropWhile rustIsWhitespace) = true := by
  induction l with
  | nil => rfl
  | cons a t ih =>
    rw [List.dropWhile_cons]
    by_cases h : rustIsWhitespace a = true
    · simpa [h] using ih
    · simp only [Bool.not_eq_true] at h
      simp [h, noLeadWS]

theorem trimRightRust_append (u : List Char) :
    ∃ w, trimRightRust u ++ w = u := by
  obtain ⟨w, hw⟩ := List.dropWhile_suffix (l := u.reverse) rustIsWhitespace
  refine ⟨w.reverse, ?_⟩
  have := congrArg List.reverse hw
  simpa [trimRightRust, List.reverse_append] using this

theorem noLeadWS_of_append {u v w : List Char} (h : v ++ w = u)
    (hu : noLeadWS u = true) : noLeadWS v = true := by
  cases v with
  | nil => rfl
  | cons a t =>
    subst h
    simpa [noLeadWS] using hu

theorem noLeadWS_trimLeft (s : List Char) : noLeadWS (trimLeftRust s) = true :=
  noLeadWS_dropWhile s

theorem noTrailWS_trimRight (u : List Char) :
    noTrailWS (trimRightRust u) = true := by
  unfold noTrailWS trimRightRust
  rw [List.reverse_reverse]
  exact noLeadWS_dropWhile u.reverse

theorem noLeadWS_trimRight {u : List Char} (hu : noLeadWS u = true) :
    noLeadWS (trimRightRust u) = true := by
  obtain ⟨w, hw⟩ := trimRightRust_append u
  exact noLeadWS_of_append hw hu

theorem noLeadWS_rustTrim (s : List Char) : noLeadWS (rustTrim s) = true :=
  noLeadWS_trimRight (noLeadWS_trimLeft s)

theorem noTrailWS_rustTrim (s : List Char) : noTrailWS (rustTrim s) = true :=
  noTrailWS_trimRight (trimLeftRust s)

theorem noLeadWS_trim_ellipsis (s : List Char) :
    noLeadWS (rustTrim s ++ ['…', '…']) = true := by
  have h := noLeadWS_rustTrim s
  cases hx : rustTrim s with
  | nil => decide
  | cons a t =>
    rw [hx] at h
    simpa [noLeadWS] using h

theorem noTrailWS_append_ellipsis (x : List Char) :
    noTrailWS (x ++ ['…', '…']) = true := by
  unfold noTrailWS
  rw [List.reverse_append]
  rfl

theorem rustTrim_of_clean {r : List Char} (h1 : noLeadWS r = true)
    (h2 : noTrailWS r = true) : rustTrim r = r := by
  have hl : trimLeftRust r = r := by
    cases r with
    | nil => rfl
    | cons a t =>
      simp only [noLeadWS, Bool.not_eq_true'] at h1
      simp [trimLeftRust, List.dropWhile_cons, h1]
  have hr : trimRightRust r = r := by
    unfold trimRightRust
    have : r.reverse.dropWhile rustIsWhitespace = r.reverse := by
      cases hrev : r.reverse with
      | nil => rfl
      | cons a t =>
        unfold noTrailWS at h2
        rw [hrev] at h2
        simp only [noLeadWS, Bool.not_eq_true'] at h2
        simp [List.dropWhile_cons, h2]
    rw [this, List.reverse_reverse]
  rw [rustTrim, hl, hr]

/-- Every branch of the truncator yields a string with neither leading nor
trailing whitespace. -/
theorem substring_clean (s : List Char) (b : Bool) :
    noLeadWS (substring_desc_with_truncation s b) = true ∧
      noTrailWS (substring_desc_with_truncation s b) = true := by
  unfold substring_desc_with_truncation substring_desc_core
  split
  · exact ⟨noLeadWS_rustTrim s, noTrailWS_rustTrim s⟩
  · split
    · exact ⟨noLeadWS_rustTrim s, noTrailWS_rustTrim s⟩
    · split
      · split
        · exact ⟨noLeadWS_rustTrim _, noTrailWS_rustTrim _⟩
        · exact ⟨noLeadWS_trim_ellipsis _, noTrailWS_append_ellipsis _⟩
      · exact ⟨noLeadWS_trim_ellipsis _, noTrailWS_append_ellipsis _⟩

theorem rustTrim_length_le (s : List Char) : (rustTrim s).length ≤ s.length := by
  calc (rustTrim s).length
      ≤ (trimLeftRust s).length := by
        simpa [rustTrim, trimRightRust] using
          (List.dropWhile_suffix (l := (trimLeftRust s).reverse)
            rustIsWhitespace).length_le
    _ ≤ s.length := (List.dropWhile_suffix rustIsWhitespace).length_le

/-! ## Claims C3, C4, C10 (truncator) -/

/-- A long input whose first newline after the soft limit lies before the
hard limit: 700 `a`s, a newline, then a `b`. -/
def truncLongInput : List Char := List.replicate 700 'a' ++ ['\n', 'b']

set_option maxRecDepth 40000 in
/-- C3 counterexample: the truncator is not idempotent.  On `truncLongInput`
the first application cuts at the newline (position 700, before the hard
limit 800) and returns 700 characters; the second application finds no
newline and cuts again at 600 with an ellipsis. -/
theorem c3_counterexample :
    substring_desc_with_truncation
        (substring_desc_with_truncation truncLongInput true) true ≠
      substring_desc_with_truncation truncLongInput true := by
  decide

/-- C3 (amended): the truncator is idempotent on every input whose truncation
is at most the soft limit long; the newline-cut branch can return a string
longer than the soft limit, and on such a result a second application
truncates further, so unconditional idempotence fails. -/
theorem c3_idempotent_on_short_results (s : List Char)
    (h : (substring_desc_with_truncation s true).length ≤ SUMMARY_MAX_LENGTH) :
    substring_desc_with_truncation (substring_desc_with_truncation s true) true =
      substring_desc_with_truncation s true := by
  have h1 := (substring_clean s true).1
  have h2 := (substring_clean s true).2
  generalize hr : substring_desc_with_truncation s true = r at h1 h2 h ⊢
  unfold substring_desc_with_truncation substring_desc_core
  simp only [Bool.not_true, Bool.false_eq_true, if_false, if_pos h]
  exact rustTrim_of_clean h1 h2

/-- C3 witness: a concrete short input on which the hypothesis holds. -/
theorem c3_witness :
    (substring_desc_with_truncation "abc".toList true).length ≤
        SUMMARY_MAX_LENGTH ∧
      substring_desc_with_truncation
          (substring_desc_with_truncation "abc".toList true) true =
        substring_desc_with_truncation "abc".toList true :=
  ⟨by decide, c3_idempotent_on_short_results "abc".toList (by decide)⟩

set_option maxRecDepth 40000 in
/-- C4 counterexample: on `truncLongInput` the truncator returns 700
characters (the newline cut), which exceeds the soft limit plus the
two-code-point ellipsis length. -/
theorem c4_counterexample :
    SUMMARY_MAX_LENGTH + 2 <
      (substring_desc_with_truncation truncLongInput true).length := by
  decide

theorem ellipsis_branch_length (s : List Char) :
    (rustTrim (s.take SUMMARY_MAX_LENGTH) ++ ['…', '…']).length <
      SUMMARY_MAX_MAX_LENGTH := by
  rw [List.length_append]
  have h1 := rustTrim_length_le (s.take SUMMARY_MAX_LENGTH)
  have h2 : (s.take SUMMARY_MAX_LENGTH).length ≤ SUMMARY_MAX_LENGTH := by
    rw [List.length_take]; omega
  simp only [List.length_cons, List.length_nil,
    SUMMARY_MAX_LENGTH, SUMMARY_MAX_MAX_LENGTH] at *
  omega

/-- C4 (amended): the truncator's output is always strictly shorter than the
hard limit; the `soft_limit + ellipsis` bound claimed by the spec holds in
the ellipsis branch (600 + 2) and the short branch, but the newline-cut
branch may return up to `hard_limit - 1` characters. -/
theorem c4_length_lt_hard_limit (s : List Char) :
    (substring_desc_with_truncation s true).length < SUMMARY_MAX_MAX_LENGTH := by
  unfold substring_desc_with_truncation substring_desc_core
  simp only [Bool.not_true, Bool.false_eq_true, if_false]
  split
  · rename_i hshort
    calc (rustTrim s).length ≤ s.length := rustTrim_length_le s
      _ ≤ SUMMARY_MAX_LENGTH := hshort
      _ < SUMMARY_MAX_MAX_LENGTH := by
          simp [SUMMARY_MAX_LENGTH, SUMMARY_MAX_MAX_LENGTH]
  · split
    · rename_i pos hnl
      split
      · rename_i hpos
        calc (rustTrim (s.take pos)).length
            ≤ (s.take pos).length := rustTrim_length_le _
          _ ≤ pos := by rw [List.length_take]; omega
          _ < SUMMARY_MAX_MAX_LENGTH := hpos
      · exact ellipsis_branch_length s
    · exact ellipsis_branch_length s

/-- C10: every branch of the caption truncator — truncation disabled, input
within the soft limit, newline cut, and soft-limit cut with ellipsis —
returns a string with no leading and no trailing whitespace, i.e. a string
fixed by Rust `str::trim`. -/
theorem c10_output_always_trimmed (s : List Char) (b : Bool) :
    noLeadWS (substring_desc_with_truncation s b) = true ∧
      noTrailWS (substring_desc_with_truncation s b) = true ∧
      rustTrim (substring_desc_with_truncation s b) =
        substring_desc_with_truncation s b :=
  ⟨(substring_clean s b).1, (substring_clean s b).2,
    rustTrim_of_clean (substring_clean s b).1 (substring_clean s b).2⟩

/-! ## BBCode tag registry

From `src/processor/nga/src/bbcode.rs`: `TagDef` and `TAG_REGISTRY`. -/

structure TagDef where
  name : List Char
  htmlOpen : List Char
  htmlClose : List Char
  removeContent : Bool

/-- The seventeen entries of `TAG_REGISTRY`, in source order.
`TagDef::new` entries carry HTML, `TagDef::removed` sets the removal flag,
`TagDef::passthrough` has empty HTML, and `.with_close` overrides the
closing string. -/
def TAG_REGISTRY : List TagDef := [
  ⟨"b".toList, "<b>".toList, "</b>".toList, false⟩,
  ⟨"i".toList, "<i>".toList, "</i>".toList, false⟩,
  ⟨"u".toList, "<u>".toList, "</u>".toList, false⟩,
  ⟨"s".toList, "<s>".toList, "</s>".toList, false⟩,
  ⟨"del".toList, "<del>".toList, "</del>".toList, false⟩,
  ⟨"quote".toList, "<blockquote>".toList, "</blockquote>".toList, false⟩,
  ⟨"img".toList, [], [], true⟩,
  ⟨"flash".toList, [], [], false⟩,
  ⟨"table".toList, "\n<pre>".toList, "</pre>".toList, false⟩,
  ⟨"tr".toList, [], "\n".toList, false⟩,
  ⟨"td".toList, [], " │ ".toList, false⟩,
  ⟨"pid".toList, [], [], false⟩,
  ⟨"uid".toList, [], [], false⟩,
  ⟨"url".toList, [], [], false⟩,
  ⟨"collapse".toList, [], [], false⟩,
  ⟨"color".toList, [], [], false⟩,
  ⟨"dice".toList, "🎲 ".toList, [], false⟩]

/-- `ParamTag`: tags carrying a parameter value. -/
inductive ParamTag where
  | Url (v : List Char)
  | Collapse (v : List Char)
  | TableCell (v : List Char)
  | Pid (v : List Char)
  | Uid (v : List Char)
  | Color (v : List Char)
  | Sticker (v : List Char)
  | Size (v : List Char)
deriving DecidableEq

/-- `ParamTag::base_name`.  Note `Size` maps to `"size"`, which has no
registry entry, and `Sticker` maps to `"s"`. -/
def ParamTag.baseName : ParamTag → List Char
  | .Url _ => "url".toList
  | .Collapse _ => "collapse".toList
  | .TableCell _ => "td".toList
  | .Pid _ => "pid".toList
  | .Uid _ => "uid".toList
  | .Color _ => "color".toList
  | .Sticker _ => "s".toList
  | .Size _ => "size".toList

/-- `BBCodeTag`: a registry index or a parameterised tag. -/
inductive BBCodeTag where
  | Simple (idx : Nat)
  | Parameterized (p : ParamTag)
deriving DecidableEq

/-- ASCII lower-casing of one character.  This models both Rust
`str::to_lowercase` and `eq_ignore_ascii_case` as used by the parser: the
full Unicode lower-case map differs from the ASCII one only on non-ASCII
upper-case letters, and no such letter lower-cases to any of the ASCII
registry names or prefixes, so tag resolution is extensionally identical
under either map. -/
def asciiToLower (c : Char) : Char :=
  if 65 ≤ c.toNat ∧ c.toNat ≤ 90 then Char.ofNat (c.toNat + 32) else c

/-- Lower-casing of a token (`tag.to_lowercase()`). -/
def lowerTok (s : List Char) : List Char := s.map asciiToLower

/-- Rust `str::eq_ignore_ascii_case`. -/
def eqIgnoreAsciiCase (a b : List Char) : Bool := lowerTok a == lowerTok b

/-- Rust `str::strip_prefix`. -/
def stripPre (pat s : List Char) : Option (List Char) :=
  if isPre pat s then some (s.drop pat.length) else none

/-- The simple-tag half of `BBCodeTag::parse`: scan `TAG_REGISTRY` for the
first entry whose name equals the lower-cased token. -/
def simpleLookup (tok : List Char) : Option Nat :=
  TAG_REGISTRY.findIdx? (fun d => lowerTok tok == d.name)

/-- `BBCodeTag::parse_parameterized`.  All the prefix tests run on the
original (not lower-cased) token, exactly as in the source. -/
def BBCodeTag.parseParameterized (tok : List Char) : Option BBCodeTag :=
  if isPre "url=".toList tok then some (.Parameterized (.Url (tok.drop 4)))
  else if isPre "collapse=".toList tok then
    some (.Parameterized (.Collapse (tok.drop 9)))
  else if isPre "td".toList tok && decide (2 < tok.length) then
    some (.Parameterized (.TableCell (tok.drop 2)))
  else if isPre "pid=".toList tok then some (.Parameterized (.Pid (tok.drop 4)))
  else if isPre "uid=".toList tok then some (.Parameterized (.Uid (tok.drop 4)))
  else if isPre "color=".toList tok then
    some (.Parameterized (.Color (tok.drop 6)))
  else if isPre "s:ac:".toList tok || isPre "s:".toList tok then
    some (.Parameterized (.Sticker tok))
  else if isPre "size=".toList tok then
    some (.Parameterized (.Size (tok.drop 5)))
  else none

/-- `BBCodeTag::parse`: simple registry lookup on the lower-cased token
first, then the case-sensitive parameterised forms. -/
def BBCodeTag.parse (tok : List Char) : Option BBCodeTag :=
  match simpleLookup tok with
  | some idx => some (.Simple idx)
  | none => BBCodeTag.parseParameterized tok

/-- `BBCodeTag::def`: the registry entry backing a tag, if any. -/
def BBCodeTag.tagDef : BBCodeTag → Option TagDef
  | .Simple idx => TAG_REGISTRY.get? idx
  | .Parameterized p => TAG_REGISTRY.find? (fun d => d.name == p.baseName)

/-- `BBCodeTag::base_name`. -/
def BBCodeTag.baseName : BBCodeTag → List Char
  | .Simple idx => ((TAG_REGISTRY.get? idx).map TagDef.name).getD []
  | .Parameterized p => p.baseName

/-- `BBCodeTag::to_html_open`. -/
def BBCodeTag.toHtmlOpen (t : BBCodeTag) : List Char :=
  (t.tagDef.map TagDef.htmlOpen).getD []

/-- `BBCodeTag::to_html_close`. -/
def BBCodeTag.toHtmlClose (t : BBCodeTag) : List Char :=
  (t.tagDef.map TagDef.htmlClose).getD []

/-- `BBCodeTag::should_remove_content`. -/
def BBCodeTag.shouldRemoveContent : BBCodeTag → Bool
  | .Simple idx => ((TAG_REGISTRY.get? idx).map TagDef.removeContent).getD false
  | .Parameterized (.Sticker _) => true
  | .Parameterized _ => false

/-- `BBCodeTag::is_self_closing`. -/
def BBCodeTag.isSelfClosing : BBCodeTag → Bool
  | .Parameterized (.Sticker _) => true
  | _ => false

/-! ## The BBCode parser

From `src/processor/nga/src/bbcode.rs`, `BBCodeParser`.  The parser state is
the character vector and a cursor; the top-level loop is embedded as a
fuelled function whose fuel bounds the number of loop iterations — each
iteration strictly advances the cursor, so `length + 1` fuel always
suffices (proved below as claim C7). -/

/-- `BBCodeParser::current_char` (and, at `pos + 1`, `peek_char`):
out-of-range access yields `'\0'`. -/
def currentChar (cs : List Char) (pos : Nat) : Char := cs.getD pos '\x00'

/-- `BBCodeParser::is_opening_tag`. -/
def isOpeningTag (cs : List Char) (pos : Nat) : Bool :=
  currentChar cs pos == '[' && currentChar cs (pos + 1) != '/'

/-- `BBCodeParser::parse_opening_tag_at`: find the `']'` closing the token,
resolve the token, and return the tag with the index one past the `']'`. -/
def parseOpeningTagAt (cs : List Char) (start : Nat) :
    Option (BBCodeTag × Nat) :=
  if start < cs.length && currentChar cs start == '[' then
    match firstIdx (fun c => c == ']') (cs.drop (start + 1)) with
    | some k =>
      (BBCodeTag.parse ((cs.drop (start + 1)).take k)).map
        (fun t => (t, start + 1 + k + 1))
    | none => none
  else none

/-- `BBCodeParser::is_closing_tag_at`: a `[/name]` at `pos` whose name
matches `expected` up to ASCII case. -/
def isClosingTagAt (cs : List Char) (pos : Nat) (expected : List Char) :
    Bool :=
  if cs.length ≤ pos + 2 then false
  else if !(currentChar cs pos == '[' && currentChar cs (pos + 1) == '/') then
    false
  else
    match firstIdx (fun c => c == ']') (cs.drop (pos + 2)) with
    | some k => eqIgnoreAsciiCase ((cs.drop (pos + 2)).take k) expected
    | none => false

/-- `BBCodeParser::is_same_opening_tag_at`. -/
def isSameOpeningTagAt (cs : List Char) (pos : Nat) (expected : List Char) :
    Bool :=
  match parseOpeningTagAt cs pos with
  | some (tag, _) => tag.baseName == expected
  | none => false

/-- The loop of `BBCodeParser::find_closing_tag`: depth-counted scanning.
A closing tag with the sought base name decrements the depth (returning the
position on reaching zero), a same-base-name opening tag increments it, and
everything else is skipped.  The fuel bounds the iteration count; one
iteration per cursor position, so `length + 1` always suffices. -/
def findClosingTagGo (cs name : List Char) : Nat → Nat → Int → Option Nat
  | 0, _, _ => none
  | fu + 1, pos, depth =>
    if pos < cs.length then
      if currentChar cs pos == '[' then
        if isClosingTagAt cs pos name then
          if depth - 1 == 0 then some pos
          else findClosingTagGo cs name fu (pos + 1) (depth - 1)
        else if isSameOpeningTagAt cs pos name then
          findClosingTagGo cs name fu (pos + 1) (depth + 1)
        else findClosingTagGo cs name fu (pos + 1) depth
      else findClosingTagGo cs name fu (pos + 1) depth
    else none

/-- `BBCodeParser::find_closing_tag`, starting at `pos` with depth 1. -/
def findClosingTag (cs name : List Char) (pos : Nat) : Option Nat :=
  findClosingTagGo cs name (cs.length + 1) pos 1

/-- `BBCodeParser::skip_closing_tag_at`: from a `'['`, advance past the next
`']'` (or to the end of input). -/
def skipClosingTagAt (cs : List Char) (pos : Nat) : Nat :=
  if pos < cs.length && currentChar cs pos == '[' then
    match firstIdx (fun c => c == ']') (cs.drop pos) with
    | some k => pos + k + 1
    | none => cs.length
  else pos

/-- `BBCodeParser::extract_content`: the slice `chars[a..b]`. -/
def extractContent (cs : List Char) (a b : Nat) : List Char :=
  (cs.drop a).take (b - a)

/-! ### Table extraction

`BBCodeParser::format_table` uses two regexes.  `(?s)\[tr\](.*?)\[/tr\]`
with lazy repetition and `find_iter` yields, repeatedly: the first `[tr]`,
then the earliest `[/tr]` after it, continuing after the consumed match.
`(?s)\[td[^]]*\](.*?)\[/td\]` likewise matches `[td`, then everything up to
the first `']'`, then lazily up to the earliest `[/td]`.  The functions
below implement exactly that leftmost-first scanning; the fuel bounds the
match count (each match consumes at least nine characters, so `length + 1`
always suffices). -/

/-- Row matches (the full `[tr]…[/tr]` slices) of the `tr` regex. -/
def trMatchesGo (fu : Nat) (cs : List Char) : List (List Char) :=
  match fu with
  | 0 => []
  | fu + 1 =>
    match firstRunIdx "[tr]".toList cs with
    | none => []
    | some i =>
      match firstRunIdx "[/tr]".toList (cs.drop (i + 4)) with
      | none => []
      | some j =>
        ((cs.drop i).take (4 + j + 5)) ::
          trMatchesGo fu ((cs.drop (i + 4)).drop (j + 5))

def trMatches (cs : List Char) : List (List Char) :=
  trMatchesGo (cs.length + 1) cs

/-- Cell captures (group 1, the text between the `td` token and `[/td]`)
of the `td` regex over one row match. -/
def tdCapturesGo (fu : Nat) (m : List Char) : List (List Char) :=
  match fu with
  | 0 => []
  | fu + 1 =>
    match firstRunIdx "[td".toList m with
    | none => []
    | some i =>
      match firstIdx (fun c => c == ']') (m.drop (i + 3)) with
      | none => []
      | some k =>
        match firstRunIdx "[/td]".toList (((m.drop (i + 3)).drop (k + 1))) with
        | none => []
        | some j =>
          ((((m.drop (i + 3)).drop (k + 1))).take j) ::
            tdCapturesGo fu ((((m.drop (i + 3)).drop (k + 1))).drop (j + 5))

def tdCaptures (m : List Char) : List (List Char) :=
  tdCapturesGo (m.length + 1) m

/-- Join with a separator. -/
def joinSep (sep : List Char) : List (List Char) → List Char
  | [] => []
  | [x] => x
  | x :: y :: t => x ++ sep ++ joinSep sep (y :: t)

/-- Pad a cell on the right with spaces to the given width. -/
def padTo (w : Nat) (s : List Char) : List Char :=
  s ++ List.replicate (w - s.length) ' '

/-- Width of column `j`. -/
def colWidth (rows : List (List (List Char))) (j : Nat) : Nat :=
  rows.foldr (fun r acc => max (r.getD j []).length acc) 0

/-- Model of the external `tabled` crate (`Table::from_iter` followed by
`Style::empty()` and `to_string`): an aligned, borderless grid.  This is a
third-party dependency of the source, not repository code; none of the
claims proved in this file depend on its exact output. -/
def tabledRender (rows : List (List (List Char))) : List Char :=
  let ncols := rows.foldr (fun r acc => max r.length acc) 0
  joinSep "\n".toList (rows.map (fun r =>
    joinSep " ".toList ((List.range ncols).map (fun j =>
      padTo (colWidth rows j) (r.getD j [])))))

/-- `optMapList` for rows of cells. -/
def optMapRows (g : List Char → Option (List (List Char))) :
    List (List Char) → Option (List (List (List Char)))
  | [] => some []
  | a :: t =>
    match g a, optMapRows g t with
    | some b, some u => some (b :: u)
    | _, _ => none

/-- `BBCodeParser::format_table`, parameterised by the recursive cell
parser `pr` (the surrounding `parseF` at one lower fuel).  Quick reject
when the body holds no `[tr]`/`[td`; otherwise parse and trim every cell,
drop rows with no cells, and render the remaining grid. -/
def formatTableWith (pr : List Char → Option (List Char))
    (content : List Char) : Option (List Char) :=
  if !hasRun "[tr]".toList content || !hasRun "[td".toList content then
    some []
  else
    match optMapRows
        (fun m => optMapList (fun cell => (pr cell).map rustTrim)
          (tdCaptures m))
        (trMatches content) with
    | none => none
    | some rowsAll =>
      let rows := rowsAll.filter (fun cells => !cells.isEmpty)
      if rows.isEmpty then some [] else some (tabledRender rows)

/-- The opening of an anchor: `format!("<a href=\"{}\">", href)`. -/
def anchorPre (href : List Char) : List Char :=
  "<a href=\"".toList ++ href ++ "\">".toList

/-- `BBCodeParser::render_tag`, parameterised by the recursive content
parser `pr`.  Branch order follows the source: the `table` base name first,
then the parameterised `Url`/`Collapse`/`Size` special cases, then the
value-less `url` base name, then the generic wrap. -/
def renderTagWith (pr : List Char → Option (List Char)) (tag : BBCodeTag)
    (content : List Char) : Option (List Char) :=
  if tag.baseName == "table".toList then
    (formatTableWith pr content).map
      (fun t => tag.toHtmlOpen ++ t ++ tag.toHtmlClose)
  else
    match tag with
    | .Parameterized (.Url href) =>
      (pr content).map (fun p => anchorPre href ++ p ++ "</a>".toList)
    | .Parameterized (.Collapse title) =>
      (pr content).map (fun p =>
        "[".toList ++ title ++ "] ".toList ++ p ++
          " [/".toList ++ title ++ "]".toList)
    | .Parameterized (.Size _) =>
      (pr content).map (fun p => "<b>".toList ++ p ++ "</b>".toList)
    | _ =>
      if tag.baseName == "url".toList then
        (pr content).map (fun p => anchorPre p ++ p ++ "</a>".toList)
      else
        (pr content).map (fun p => tag.toHtmlOpen ++ p ++ tag.toHtmlClose)

/-- The main parsing loop (`BBCodeParser::parse` together with
`process_tag`), fuelled.  One unit of fuel is spent per loop iteration (the
final `pos ≥ length` check included), and recursive sub-parses of extracted
content run the same function at lower fuel from position 0, exactly as
`BBCodeParser::new(content).parse()` does.  Note the unmatched-open branch:
the literal `'['` is emitted and the cursor stays at `tagEnd`, one past the
token's `']'`. -/
def parseF (f : Nat) (cs : List Char) (pos : Nat) : Option (List Char) :=
  match f with
  | 0 => none
  | f + 1 =>
    if pos < cs.length then
      if isOpeningTag cs pos then
        match parseOpeningTagAt cs pos with
        | some (tag, tagEnd) =>
          if tag.isSelfClosing then
            (parseF f cs tagEnd).map (fun rest =>
              (if tag.shouldRemoveContent then []
               else tag.toHtmlOpen ++ tag.toHtmlClose) ++ rest)
          else
            match findClosingTag cs tag.baseName tagEnd with
            | some contentEnd =>
              match
                (if tag.shouldRemoveContent then some []
                 else renderTagWith (fun c => parseF f c 0) tag
                   (extractContent cs tagEnd contentEnd)) with
              | some rendered =>
                (parseF f cs (skipClosingTagAt cs contentEnd)).map
                  (fun rest => rendered ++ rest)
              | none => none
            | none =>
              (parseF f cs tagEnd).map (fun rest => '[' :: rest)
        | none =>
          (parseF f cs (pos + 1)).map
            (fun rest => currentChar cs pos :: rest)
      else
        (parseF f cs (pos + 1)).map
          (fun rest => currentChar cs pos :: rest)
    else some []

/-- `BBCodeParser::new(input).parse()`: run the loop from position 0 with
sufficient fuel (input length + 1). -/
def bbParse (cs : List Char) : List Char :=
  (parseF (cs.length + 1) cs 0).getD []

/-! ## The content pipeline

From `src/processor/nga/src/utils.rs` (`replace_html_entities`,
`normalize_newlines`), `src/processor/nga/src/page.rs` (`escape_html`) and
`src/processor/nga/src/bbcode.rs` (`ContentCleaner::clean`). -/

/-- `replace_html_entities`: one left-to-right pass replacing the regex
alternation `&quot;|&amp;|&lt;|&gt;|&nbsp;|&apos;|<br/>|<br>` (the source
writes the last two as `<br/?>`), leftmost-first. -/
def replace_html_entities : List Char → List Char
  | [] => []
  | '&' :: 'q' :: 'u' :: 'o' :: 't' :: ';' :: rest =>
    '"' :: replace_html_entities rest
  | '&' :: 'a' :: 'm' :: 'p' :: ';' :: rest =>
    '&' :: replace_html_entities rest
  | '&' :: 'l' :: 't' :: ';' :: rest => '<' :: replace_html_entities rest
  | '&' :: 'g' :: 't' :: ';' :: rest => '>' :: replace_html_entities rest
  | '&' :: 'n' :: 'b' :: 's' :: 'p' :: ';' :: rest =>
    ' ' :: replace_html_entities rest
  | '&' :: 'a' :: 'p' :: 'o' :: 's' :: ';' :: rest =>
    '\'' :: replace_html_entities rest
  | '<' :: 'b' :: 'r' :: '/' :: '>' :: rest =>
    '\n' :: replace_html_entities rest
  | '<' :: 'b' :: 'r' :: '>' :: rest => '\n' :: replace_html_entities rest
  | c :: rest => c :: replace_html_entities rest

/-- Rust `str::replace` of one character by a string: a single pass over
the original text. -/
def replaceAllChar (c : Char) (rep : List Char) (s : List Char) : List Char :=
  s.flatMap (fun x => if x == c then rep else [x])

/-- `escape_html` from `page.rs`:
`.replace('&',"&amp;").replace('<',"&lt;").replace('>',"&gt;")`,
applied in that order. -/
def escape_html (s : List Char) : List Char :=
  replaceAllChar '>' "&gt;".toList
    (replaceAllChar '<' "&lt;".toList
      (replaceAllChar '&' "&amp;".toList s))

/-- Emit a run of `run` pending newlines: three or more collapse to exactly
two (the regex `\n{3,}` replaced by `"\n\n"`, which acts on maximal runs). -/
def emitRun (run : Nat) : List Char :=
  if 3 ≤ run then ['\n', '\n'] else List.replicate run '\n'

/-- State machine for `normalize_newlines`: `run` counts the pending
newline run. -/
def normNLGo (run : Nat) : List Char → List Char
  | [] => emitRun run
  | c :: rest =>
    if c == '\n' then normNLGo (run + 1) rest
    else emitRun run ++ (c :: normNLGo 0 rest)

/-- `normalize_newlines`: collapse every run of three or more newlines to
exactly two. -/
def normalize_newlines (s : List Char) : List Char := normNLGo 0 s

/-- `ContentCleaner::clean`: decode entities, escape the three HTML
metacharacters, parse the BBCode, normalise newlines — in that order. -/
def ContentCleaner_clean (body : List Char) : List Char :=
  let decoded := replace_html_entities body
  let escaped := escape_html decoded
  let parsed := bbParse escaped
  normalize_newlines parsed

/-! ## Termination of the parser (claim C7) -/

theorem isSome_map {α β : Type} (g : α → β) (o : Option α) :
    (o.map g).isSome = o.isSome := by
  cases o <;> rfl

theorem firstIdx_lt_length {p : Char → Bool} :
    ∀ {l : List Char} {k : Nat}, firstIdx p l = some k → k < l.length := by
  intro l
  induction l with
  | nil => intro k h; simp [firstIdx] at h
  | cons a t ih =>
    intro k h
    simp only [firstIdx] at h
    split at h
    · cases h; simp
    · cases hh : firstIdx p t with
      | none => rw [hh] at h; simp at h
      | some k' =>
        rw [hh] at h
        simp only [Option.map_some'] at h
        cases h
        have := ih hh
        simp only [List.length_cons]
        omega

theorem parseOpeningTagAt_bounds {cs : List Char} {start : Nat}
    {tag : BBCodeTag} {tagEnd : Nat}
    (h : parseOpeningTagAt cs start = some (tag, tagEnd)) :
    start + 2 ≤ tagEnd ∧ tagEnd ≤ cs.length := by
  unfold parseOpeningTagAt at h
  split at h
  · rename_i hguard
    cases hk : firstIdx (fun c => c == ']') (cs.drop (start + 1)) with
    | none => exact Option.noConfusion (by simpa only [hk] using h)
    | some k =>
      simp only [hk] at h
      have hlt := firstIdx_lt_length hk
      rw [List.length_drop] at hlt
      cases hp : BBCodeTag.parse ((cs.drop (start + 1)).take k) with
      | none => exact Option.noConfusion (by simpa only [hp, Option.map_none'] using h)
      | some t =>
        simp only [hp, Option.map_some', Option.some.injEq, Prod.mk.injEq] at h
        obtain ⟨-, hEnd⟩ := h
        simp only [Bool.and_eq_true, decide_eq_true_eq] at hguard
        omega
  · simp at h

theorem findClosingTagGo_bounds {cs name : List Char} :
    ∀ {fu pos : Nat} {depth : Int} {r : Nat},
      findClosingTagGo cs name fu pos depth = some r →
      pos ≤ r ∧ r < cs.length := by
  intro fu
  induction fu with
  | zero => intro pos depth r h; simp [findClosingTagGo] at h
  | succ fu ih =>
    intro pos depth r h
    rw [findClosingTagGo] at h
    split at h
    · rename_i hp
      split at h
      · split at h
        · split at h
          · cases h; omega
          · have := ih h; omega
        · split at h
          · have := ih h; omega
          · have := ih h; omega
      · have := ih h; omega
    · simp at h

theorem findClosingTag_bounds {cs name : List Char} {pos r : Nat}
    (h : findClosingTag cs name pos = some r) : pos ≤ r ∧ r < cs.length :=
  findClosingTagGo_bounds h

theorem skipClosingTagAt_ge {cs : List Char} {pos : Nat}
    (h : pos ≤ cs.length) : pos ≤ skipClosingTagAt cs pos := by
  unfold skipClosingTagAt
  split
  · split
    · omega
    · exact h
  · omega

theorem extractContent_length (cs : List Char) (a b : Nat) :
    (extractContent cs a b).length ≤ cs.length - a := by
  unfold extractContent
  rw [List.length_take, List.length_drop]
  omega

theorem optMapList_isSome {g : List Char → Option (List Char)} :
    ∀ {l : List (List Char)}, (∀ a ∈ l, (g a).isSome = true) →
      (optMapList g l).isSome = true := by
  intro l
  induction l with
  | nil => intro _; rfl
  | cons a t ih =>
    intro h
    have ha := h a (by simp)
    have ht := ih (fun x hx => h x (by simp [hx]))
    rw [optMapList]
    obtain ⟨b, hb⟩ := Option.isSome_iff_exists.mp ha
    obtain ⟨u, hu⟩ := Option.isSome_iff_exists.mp ht
    rw [hb, hu]
    rfl

theorem optMapRows_isSome {g : List Char → Option (List (List Char))} :
    ∀ {l : List (List Char)}, (∀ a ∈ l, (g a).isSome = true) →
      (optMapRows g l).isSome = true := by
  intro l
  induction l with
  | nil => intro _; rfl
  | cons a t ih =>
    intro h
    have ha := h a (by simp)
    have ht := ih (fun x hx => h x (by simp [hx]))
    rw [optMapRows]
    obtain ⟨b, hb⟩ := Option.isSome_iff_exists.mp ha
    obtain ⟨u, hu⟩ := Option.isSome_iff_exists.mp ht
    rw [hb, hu]
    rfl

theorem trMatchesGo_length_le :
    ∀ (fu : Nat) (cs m : List Char), m ∈ trMatchesGo fu cs →
      m.length ≤ cs.length := by
  intro fu
  induction fu with
  | zero => intro cs m h; simp [trMatchesGo] at h
  | succ fu ih =>
    intro cs m h
    rw [trMatchesGo] at h
    split at h
    · simp at h
    · rename_i i _
      split at h
      · simp at h
      · rename_i j _
        rcases List.mem_cons.mp h with hm | hm
        · subst hm
          rw [List.length_take, List.length_drop]
          omega
        · have := ih _ _ hm
          simp only [List.length_drop] at this ⊢
          omega

theorem trMatches_length_le {cs m : List Char} (h : m ∈ trMatches cs) :
    m.length ≤ cs.length :=
  trMatchesGo_length_le _ cs m h

theorem tdCapturesGo_length_le :
    ∀ (fu : Nat) (m c : List Char), c ∈ tdCapturesGo fu m →
      c.length ≤ m.length := by
  intro fu
  induction fu with
  | zero => intro m c h; simp [tdCapturesGo] at h
  | succ fu ih =>
    intro m c h
    rw [tdCapturesGo] at h
    split at h
    · simp at h
    · rename_i i _
      split at h
      · simp at h
      · rename_i k _
        split at h
        · simp at h
        · rename_i j _
          rcases List.mem_cons.mp h with hc | hc
          · subst hc
            rw [List.length_take]
            simp only [List.length_drop]
            omega
          · have := ih _ _ hc
            simp only [List.length_drop] at this ⊢
            omega

theorem tdCaptures_length_le {m c : List Char} (h : c ∈ tdCaptures m) :
    c.length ≤ m.length :=
  tdCapturesGo_length_le _ m c h

theorem formatTableWith_isSome {pr : List Char → Option (List Char)}
    {content : List Char}
    (h : ∀ c : List Char, c.length ≤ content.length → (pr c).isSome = true) :
    (formatTableWith pr content).isSome = true := by
  unfold formatTableWith
  split
  · rfl
  · have hrows :
        (optMapRows
          (fun m => optMapList (fun cell => (pr cell).map rustTrim)
            (tdCaptures m))
          (trMatches content)).isSome = true := by
      apply optMapRows_isSome
      intro m hm
      apply optMapList_isSome
      intro cell hcell
      rw [isSome_map]
      exact h cell
        (le_trans (tdCaptures_length_le hcell) (trMatches_length_le hm))
    obtain ⟨rows, hr⟩ := Option.isSome_iff_exists.mp hrows
    rw [hr]
    simp only []
    split <;> rfl

theorem renderTagWith_isSome {pr : List Char → Option (List Char)}
    {tag : BBCodeTag} {content : List Char}
    (h : ∀ c : List Char, c.length ≤ content.length → (pr c).isSome = true) :
    (renderTagWith pr tag content).isSome = true := by
  have hself : (pr content).isSome = true := h content le_rfl
  unfold renderTagWith
  split
  · rw [isSome_map]
    exact formatTableWith_isSome h
  · split
    · rw [isSome_map]; exact hself
    · rw [isSome_map]; exact hself
    · rw [isSome_map]; exact hself
    · split <;> (rw [isSome_map]; exact hself)

theorem parseF_isSome :
    ∀ (f : Nat) (cs : List Char) (pos : Nat), cs.length - pos < f →
      (parseF f cs pos).isSome = true := by
  intro f
  induction f with
  | zero => intro cs pos h; omega
  | succ f ih =>
    intro cs pos h
    rw [parseF]
    split
    · split
      · split
        · rename_i hp hopen tt tag tagEnd hpo
          obtain ⟨hb1, hb2⟩ := parseOpeningTagAt_bounds hpo
          split
          · rw [isSome_map]
            exact ih cs tagEnd (by omega)
          · split
            · rename_i hnsc contentEnd hfc
              obtain ⟨hc1, hc2⟩ := findClosingTag_bounds hfc
              have hskip : contentEnd ≤ skipClosingTagAt cs contentEnd :=
                skipClosingTagAt_ge (by omega)
              have hrest :
                  (parseF f cs (skipClosingTagAt cs contentEnd)).isSome
                    = true :=
                ih cs _ (by omega)
              have hrend :
                  (if tag.shouldRemoveContent = true then some []
                   else renderTagWith (fun c => parseF f c 0) tag
                     (extractContent cs tagEnd contentEnd)).isSome = true := by
                split
                · rfl
                · apply renderTagWith_isSome
                  intro c hc
                  have := extractContent_length cs tagEnd contentEnd
                  exact ih c 0 (by omega)
              obtain ⟨rendered, hrend'⟩ := Option.isSome_iff_exists.mp hrend
              simp only [hrend', isSome_map]
              exact hrest
            · rw [isSome_map]
              exact ih cs tagEnd (by omega)
        · rw [isSome_map]
          rename_i hp hopen hpo
          exact ih cs (pos + 1) (by omega)
      · rw [isSome_map]
        rename_i hp hopen
        exact ih cs (pos + 1) (by omega)
    · rfl

/-- C7: the parser always terminates within fuel bounded by the input
length: one fuel unit per loop iteration (each iteration strictly advances
the cursor, and recursive sub-parses run on strictly shorter extracted
substrings), so `length + 1` units always produce a result — `parseF` never
returns `none` there, i.e. `parse` never fails or panics, and malformed
input simply flows through the literal-output branches of the same total
function. -/
theorem c7_parse_terminates_within_length_fuel (cs : List Char) :
    (parseF (cs.length + 1) cs 0).isSome = true :=
  parseF_isSome (cs.length + 1) cs 0 (by omega)

/-! ## Claims C2, C5, C6, C8, C9 (parser and pipeline) -/

set_option maxRecDepth 8000 in
/-- C2 counterexample: on `"[b]A"` — an opening tag that resolves (`b`) with
no closing tag anywhere after it — the parser emits the literal `'['` but
does not back the cursor off: it continues from one past the token's `']'`,
so the characters `b` and `]` of the token are dropped and the output is
`"[A"`, not `"[b]A"`. -/
theorem c2_counterexample :
    bbParse "[b]A".toList = "[A".toList ∧
      bbParse "[b]A".toList ≠ "[b]A".toList :=
  ⟨by decide, by decide⟩

/-- C2 (amended): when an opening tag resolves to a known, non-self-closing
tag and no matching closing tag exists, the parser emits a literal `'['`
and continues parsing from `tagEnd`, the index one past the opening token's
`']'` — the token's characters and its `']'` are dropped, while everything
after the token is parsed normally. -/
theorem c2_unmatched_open_drops_token (f : Nat) (cs : List Char)
    (tag : BBCodeTag) (tagEnd : Nat)
    (hopen : isOpeningTag cs 0 = true)
    (hpo : parseOpeningTagAt cs 0 = some (tag, tagEnd))
    (hsc : tag.isSelfClosing = false)
    (hfc : findClosingTag cs tag.baseName tagEnd = none) :
    parseF (f + 1) cs 0 = (parseF f cs tagEnd).map (fun r => '[' :: r) := by
  have h0 : 0 < cs.length := by
    obtain ⟨h1, h2⟩ := parseOpeningTagAt_bounds hpo
    omega
  rw [parseF, if_pos h0, if_pos hopen]
  simp only [hpo, hsc, hfc, Bool.false_eq_true, if_false]

/-- C2 witness: the amended theorem applied to `"[b]A"`. -/
theorem c2_witness :
    parseF 5 "[b]A".toList 0 =
      (parseF 4 "[b]A".toList 3).map (fun r => '[' :: r) :=
  c2_unmatched_open_drops_token 4 "[b]A".toList (.Simple 0) 3
    (by decide) (by decide) (by decide) (by decide)

/-- C5 counterexample: two tag tokens differing only in letter case resolve
differently — `URL=a` resolves to no tag at all while `url=a` resolves to a
parameterised URL tag — so resolution is not case-independent for
parameterised tokens. -/
theorem c5_counterexample :
    BBCodeTag.parse "URL=a".toList = none ∧
      BBCodeTag.parse "url=a".toList =
        some (.Parameterized (.Url "a".toList)) :=
  ⟨by decide, by decide⟩

/-- C5 (amended): simple-tag resolution depends only on the lower-cased
token, and closing-tag matching is ASCII-case-insensitive — a closing tag
whose name differs in case from its opener still matches (e.g. `[/B]`
closes `[b]`) — but parameterised tag tokens (`url=`, `collapse=`, `td…`,
`pid=`, `uid=`, `color=`, `s:…`, `size=`) are matched case-sensitively on
the original token. -/
theorem c5_case_insensitivity_scope :
    (∀ t s : List Char, lowerTok t = lowerTok s →
        simpleLookup t = simpleLookup s) ∧
      (∀ (cs : List Char) (pos : Nat) (e e' : List Char),
          lowerTok e = lowerTok e' →
          isClosingTagAt cs pos e = isClosingTagAt cs pos e') ∧
      bbParse "[b]x[/B]".toList = "<b>x</b>".toList := by
  refine ⟨?_, ?_, by decide⟩
  · intro t s hts
    unfold simpleLookup
    rw [hts]
  · intro cs pos e e' hee
    unfold isClosingTagAt eqIgnoreAsciiCase
    rw [hee]

/-- C5 witness: the case-insensitivity halves of the amended theorem at
concrete case variants. -/
theorem c5_witness :
    simpleLookup "B".toList = simpleLookup "b".toList ∧
      isClosingTagAt "[b]x[/B]".toList 4 "b".toList =
        isClosingTagAt "[b]x[/B]".toList 4 "B".toList :=
  ⟨c5_case_insensitivity_scope.1 "B".toList "b".toList (by decide),
   c5_case_insensitivity_scope.2.1 "[b]x[/B]".toList 4 "b".toList "B".toList
     (by decide)⟩

set_option maxRecDepth 8000 in
/-- C8: `clean` is exactly the four-stage composition — entity decode, then
HTML-metacharacter escaping, then BBCode parsing, then newline
normalisation — and a concrete input exercising all four stages: the
entity-decoded `<b>` is re-escaped (so user angle brackets never collide
with parser output), the `[b]`/`[i]` markup is parsed, the `[img]` content
is removed, and the four newlines collapse to two. -/
theorem c8_pipeline_order :
    (∀ body : List Char,
        ContentCleaner_clean body =
          normalize_newlines
            (bbParse (escape_html (replace_html_entities body)))) ∧
      replace_html_entities "&lt;".toList = "<".toList ∧
      escape_html "<".toList = "&lt;".toList ∧
      normalize_newlines "\n\n\n\n".toList = "\n\n".toList ∧
      ContentCleaner_clean
          "&lt;b&gt;[b]X[i]Y[/i]Z[/b] [img]t.jpg[/img]\n\n\n\nW".toList =
        "&lt;b&gt;<b>X<i>Y</i>Z</b> \n\nW".toList :=
  ⟨fun _ => rfl, by decide, by decide, by decide, by decide⟩

set_option maxRecDepth 8000 in
/-- C9: a URL tag with an explicit target renders its recursively parsed
content as the anchor text with the literal target as `href`; a value-less
URL tag (the registry's simple `url`, index 13) uses the parsed content as
both `href` and text.  Stated generally over any content parser `pr` — in
`parseF` the recursive parser itself is passed here — plus the claim's two
concrete examples. -/
theorem c9_url_rendering :
    (∀ (pr : List Char → Option (List Char)) (href content : List Char),
        renderTagWith pr (.Parameterized (.Url href)) content =
          (pr content).map
            (fun p => anchorPre href ++ p ++ "</a>".toList)) ∧
      BBCodeTag.parse "url".toList = some (.Simple 13) ∧
      (∀ (pr : List Char → Option (List Char)) (content : List Char),
          renderTagWith pr (.Simple 13) content =
            (pr content).map
              (fun p => anchorPre p ++ p ++ "</a>".toList)) ∧
      bbParse "[url=https://x.com]A[/url]".toList =
        "<a href=\"https://x.com\">A</a>".toList ∧
      bbParse "[url]https://x.com[/url]".toList =
        "<a href=\"https://x.com\">https://x.com</a>".toList :=
  ⟨fun _ _ _ => rfl, by decide, fun _ _ => rfl, by decide, by decide⟩

/-! ## Media-group download fallback (claim C1)

From `src/rustgbot/src/bot.rs`, `send_media_group_with_download`.  The two
external effects are passed in as oracles: `dl` models the outcome of
`common::download_file` (bytes and content type on success), and
`extractName` models `extract_filename_from_url` (whose internals call the
external `url` crate).  The function's outcome is modelled as the media
group handed to `bot.send_media_group` (the final transport call is
external), or the error value it returns. -/

/-- The fields of `teloxide`'s `InputMediaPhoto` that the function sets. -/
structure InputMediaPhoto where
  fileName : String
  fileBytes : List Nat
  hasSpoiler : Bool
  caption : Option String
  parseModeHtml : Bool
deriving DecidableEq

/-- The "构建媒体组" loop body: an in-memory photo with the spoiler flag,
no caption yet. -/
def mkMediaPhoto (spoiler : Bool)
    (t : List Nat × String × String × String) : InputMediaPhoto :=
  { fileName := t.2.2.1, fileBytes := t.1, hasSpoiler := spoiler,
    caption := none, parseModeHtml := false }

/-- The download loop: items are fetched in order and collected as
`(bytes, content_type, file_name, url)`; the first failure aborts the whole
batch with the error `"下载失败"` (the source comment reads
"存在失败直接结束" — end immediately on failure). -/
def downloadAllGo (dl : String → Option (List Nat × String))
    (extractName : String → String → String) :
    List String → Except String (List (List Nat × String × String × String))
  | [] => .ok []
  | url :: rest =>
    match dl url with
    | some (bytes, ct) =>
      match downloadAllGo dl extractName rest with
      | .ok others => .ok ((bytes, ct, extractName url ct, url) :: others)
      | .error e => .error e
    | none => .error "下载失败"

/-- `send_media_group_with_download`: download every item (aborting on the
first failure), build the photo group, attach the caption and HTML parse
mode to the first item only, and send the group. -/
def send_media_group_with_download (dl : String → Option (List Nat × String))
    (extractName : String → String → String) (mediaUrls : List String)
    (caption : String) (spoiler : Bool) :
    Except String (List InputMediaPhoto) :=
  match downloadAllGo dl extractName mediaUrls with
  | .error e => .error e
  | .ok files =>
    match files.map (mkMediaPhoto spoiler) with
    | [] => .ok []
    | first :: rest =>
      .ok ({ first with caption := some caption, parseModeHtml := true } ::
        rest)

theorem downloadAllGo_error (dl : String → Option (List Nat × String))
    (en : String → String → String) :
    ∀ (urls : List String), (∃ u ∈ urls, dl u = none) →
      downloadAllGo dl en urls = .error "下载失败" := by
  intro urls
  induction urls with
  | nil => rintro ⟨u, hu, -⟩; exact absurd hu (List.not_mem_nil u)
  | cons url rest ih =>
    rintro ⟨u, hu, hdu⟩
    rw [downloadAllGo]
    cases hd : dl url with
    | none => rfl
    | some bc =>
      obtain ⟨bytes, ct⟩ := bc
      have hex : ∃ v ∈ rest, dl v = none := by
        rcases List.mem_cons.mp hu with rfl | hmem
        · rw [hd] at hdu; exact absurd hdu (by simp)
        · exact ⟨u, hmem, hdu⟩
      simp only [ih hex]

theorem downloadAllGo_ok (dl : String → Option (List Nat × String))
    (en : String → String → String) :
    ∀ (urls : List String), (∀ u ∈ urls, (dl u).isSome = true) →
      ∃ files, downloadAllGo dl en urls = .ok files ∧
        files.length = urls.length := by
  intro urls
  induction urls with
  | nil => intro _; exact ⟨[], rfl, rfl⟩
  | cons url rest ih =>
    intro h
    obtain ⟨bc, hbc⟩ := Option.isSome_iff_exists.mp (h url (by simp))
    obtain ⟨bytes, ct⟩ := bc
    obtain ⟨files, hf, hlen⟩ := ih (fun u hu => h u (by simp [hu]))
    refine ⟨(bytes, ct, en url ct, url) :: files, ?_, by simp [hlen]⟩
    rw [downloadAllGo]
    simp only [hbc, hf]

/-- A download oracle under which exactly the second of three items fails. -/
def c1FailingDl : String → Option (List Nat × String) :=
  fun u => if u = "u2" then none else some ([1], "image/jpeg")

/-- A download oracle under which every item succeeds. -/
def c1OkDl : String → Option (List Nat × String) :=
  fun _ => some ([1], "image/jpeg")

/-- C1 counterexample: a 3-item batch in which exactly one download fails
is not tolerated — the fallback returns the error `"下载失败"`, not a
successful outcome, and no `2/3` caption annotation is ever produced. -/
theorem c1_counterexample :
    send_media_group_with_download c1FailingDl (fun _ _ => "f")
        ["u1", "u2", "u3"] "cap" false = .error "下载失败" := by
  rfl

/-- C1 (amended): the per-item download fallback aborts on the first failed
item — if any requested URL fails to download, the whole batch ends with
the error `"下载失败"` — and only when every download succeeds is the batch
uploaded as one group, with as many items as requested, the uniform spoiler
flag on every item, and the original caption, never amended, on the first
item. -/
theorem c1_fallback_aborts_on_failure
    (dl : String → Option (List Nat × String))
    (extractName : String → String → String)
    (urls : List String) (caption : String) (spoiler : Bool) :
    ((∃ u ∈ urls, dl u = none) →
      send_media_group_with_download dl extractName urls caption spoiler =
        .error "下载失败") ∧
    ((∀ u ∈ urls, (dl u).isSome = true) →
      ∃ group,
        send_media_group_with_download dl extractName urls caption spoiler =
          .ok group ∧
        group.length = urls.length ∧
        (∀ item ∈ group, item.hasSpoiler = spoiler) ∧
        group.head?.map InputMediaPhoto.caption =
          urls.head?.map (fun _ => some caption)) := by
  constructor
  · intro hex
    unfold send_media_group_with_download
    simp only [downloadAllGo_error dl extractName urls hex]
  · intro h
    obtain ⟨files, hf, hlen⟩ := downloadAllGo_ok dl extractName urls h
    unfold send_media_group_with_download
    simp only [hf]
    cases files with
    | nil =>
      cases urls with
      | nil =>
        exact ⟨[], rfl, rfl,
          by intro item hitem; exact absurd hitem (List.not_mem_nil item), rfl⟩
      | cons u us => simp at hlen
    | cons ft fts =>
      cases urls with
      | nil => simp at hlen
      | cons u us =>
        simp only [List.map_cons]
        refine ⟨_, rfl, ?_, ?_, rfl⟩
        · simp only [List.length_cons, List.length_map] at hlen ⊢
          omega
        · intro item hitem
          rcases List.mem_cons.mp hitem with rfl | hmem
          · rfl
          · obtain ⟨t, ht, rfl⟩ := List.mem_map.mp hmem
            rfl

/-- C1 witness: both halves of the amended theorem at concrete inputs —
the failing 3-item batch errors, and an all-success 2-item batch yields a
group of 2 with the caption on the first item. -/
theorem c1_witness :
    send_media_group_with_download c1FailingDl (fun _ _ => "f")
        ["u1", "u2", "u3"] "cap" false = .error "下载失败" ∧
      ∃ group,
        send_media_group_with_download c1OkDl (fun _ _ => "f") ["a", "b"]
            "cap" true = .ok group ∧
        group.length = (["a", "b"] : List String).length ∧
        (∀ item ∈ group, item.hasSpoiler = true) ∧
        group.head?.map InputMediaPhoto.caption =
          (["a", "b"] : List String).head?.map (fun _ => some "cap") :=
  ⟨(c1_fallback_aborts_on_failure c1FailingDl (fun _ _ => "f")
      ["u1", "u2", "u3"] "cap" false).1 ⟨"u2", by decide, rfl⟩,
   (c1_fallback_aborts_on_failure c1OkDl (fun _ _ => "f") ["a", "b"]
      "cap" true).2 (fun _ _ => rfl)⟩

/-! ## Positional lemmas for the parser -/

theorem getD_append_right (l₁ l₂ : List Char) (i : Nat) (d : Char)
    (h : l₁.length ≤ i) : (l₁ ++ l₂).getD i d = l₂.getD (i - l₁.length) d := by
  simp [List.getD, List.getElem?_append_right h]

theorem getD_append_left (l₁ l₂ : List Char) (i : Nat) (d : Char)
    (h : i < l₁.length) : (l₁ ++ l₂).getD i d = l₁.getD i d := by
  simp [List.getD, List.getElem?_append, h]

theorem getD_drop (l : List Char) (p i : Nat) (d : Char) :
    (l.drop p).getD i d = l.getD (p + i) d := by
  simp [List.getD, List.getElem?_drop]

theorem getD_mem (l : List Char) (i : Nat) (d : Char) (h : i < l.length) :
    l.getD i d ∈ l := by
  simp [List.getD, List.getElem?_eq_getElem h]

theorem currentChar_drop (cs : List Char) (p i : Nat) :
    currentChar (cs.drop p) i = currentChar cs (p + i) := by
  simp [currentChar, getD_drop]

theorem isOpeningTag_false_of_not_bracket {cs : List Char} {pos : Nat}
    (h : currentChar cs pos ≠ '[') : isOpeningTag cs pos = false := by
  unfold isOpeningTag
  have : (currentChar cs pos == '[') = false := by
    simpa using h
  simp [this]

theorem isClosingTagAt_false_of_not_bracket {cs : List Char} {pos : Nat}
    (name : List Char) (h : currentChar cs pos ≠ '[') :
    isClosingTagAt cs pos name = false := by
  unfold isClosingTagAt
  split
  · rfl
  · have : (currentChar cs pos == '[') = false := by simpa using h
    simp [this]

theorem parseOpeningTagAt_none_of_not_bracket {cs : List Char} {pos : Nat}
    (h : currentChar cs pos ≠ '[') : parseOpeningTagAt cs pos = none := by
  unfold parseOpeningTagAt
  have : (currentChar cs pos == '[') = false := by simpa using h
  simp [this]

theorem isSameOpeningTagAt_false_of_not_bracket {cs : List Char} {pos : Nat}
    (name : List Char) (h : currentChar cs pos ≠ '[') :
    isSameOpeningTagAt cs pos name = false := by
  unfold isSameOpeningTagAt
  rw [parseOpeningTagAt_none_of_not_bracket h]

/-! ### Shift lemmas: the scanning predicates depend only on the suffix -/

theorem isClosingTagAt_shift (cs name : List Char) (pos : Nat) :
    isClosingTagAt cs pos name = isClosingTagAt (cs.drop pos) 0 name := by
  unfold isClosingTagAt
  have e0 : currentChar (cs.drop pos) 0 = currentChar cs pos := by
    rw [currentChar_drop, Nat.add_zero]
  have e1 : currentChar (cs.drop pos) (0 + 1) = currentChar cs (pos + 1) := by
    rw [currentChar_drop]
  have e2 : (cs.drop pos).drop (0 + 2) = cs.drop (pos + 2) := by
    rw [List.drop_drop]
  rw [e0, e1, e2]
  by_cases h : cs.length ≤ pos + 2
  · rw [if_pos h,
      if_pos (show (cs.drop pos).length ≤ 0 + 2 by rw [List.length_drop]; omega)]
  · rw [if_neg h,
      if_neg (show ¬((cs.drop pos).length ≤ 0 + 2) by
        rw [List.length_drop]; omega)]

theorem parseOpeningTagAt_shift (cs : List Char) (pos : Nat) :
    parseOpeningTagAt cs pos =
      (parseOpeningTagAt (cs.drop pos) 0).map
        (fun te => (te.1, te.2 + pos)) := by
  unfold parseOpeningTagAt
  have e0 : currentChar (cs.drop pos) 0 = currentChar cs pos := by
    rw [currentChar_drop, Nat.add_zero]
  have e2 : (cs.drop pos).drop (0 + 1) = cs.drop (pos + 1) := by
    rw [List.drop_drop]
  have hdec : decide (0 < (cs.drop pos).length) = decide (pos < cs.length) :=
    decide_eq_decide.mpr (by rw [List.length_drop]; omega)
  rw [e0, e2, hdec]
  by_cases h : (decide (pos < cs.length) && (currentChar cs pos == '[')) = true
  · rw [if_pos h, if_pos h]
    cases hk : firstIdx (fun c => c == ']') (cs.drop (pos + 1)) with
    | none => rfl
    | some k =>
      cases hp : BBCodeTag.parse ((cs.drop (pos + 1)).take k) with
      | none => simp [hp]
      | some t =>
        simp only [hp, Option.map_some']
        have : pos + 1 + k + 1 = 0 + 1 + k + 1 + pos := by omega
        rw [this]
  · rw [if_neg h, if_neg h, Option.map_none']

theorem isSameOpeningTagAt_shift (cs name : List Char) (pos : Nat) :
    isSameOpeningTagAt cs pos name = isSameOpeningTagAt (cs.drop pos) 0 name := by
  unfold isSameOpeningTagAt
  rw [parseOpeningTagAt_shift cs pos]
  cases parseOpeningTagAt (cs.drop pos) 0 with
  | none => rfl
  | some te => rfl

/-! ### Scanning composition lemmas for `findClosingTagGo` -/

theorem findClosingTagGo_fuel {cs name : List Char} :
    ∀ (fu fu' pos : Nat) (d : Int), cs.length - pos < fu →
      cs.length - pos < fu' →
      findClosingTagGo cs name fu pos d = findClosingTagGo cs name fu' pos d := by
  intro fu
  induction fu with
  | zero => intro fu' pos d h _; omega
  | succ fu ih =>
    intro fu' pos d h h'
    cases fu' with
    | zero => omega
    | succ fu' =>
      rw [findClosingTagGo, findClosingTagGo]
      split
      · rename_i hp
        split
        · split
          · split
            · rfl
            · exact ih fu' (pos + 1) _ (by omega) (by omega)
          · split
            · exact ih fu' (pos + 1) _ (by omega) (by omega)
            · exact ih fu' (pos + 1) _ (by omega) (by omega)
        · exact ih fu' (pos + 1) _ (by omega) (by omega)
      · rfl

theorem isClosingTagAt_bracket {cs : List Char} {pos : Nat} {name : List Char}
    (h : isClosingTagAt cs pos name = true) :
    (currentChar cs pos == '[') = true := by
  unfold isClosingTagAt at h
  split at h
  · exact absurd h (by simp)
  · split at h
    · exact absurd h (by simp)
    · rename_i hgood
      simp only [Bool.not_eq_eq_eq_not, Bool.not_true, Bool.and_eq_false_imp] at hgood
      by_cases hb : (currentChar cs pos == '[') = true
      · exact hb
      · exact absurd (fun ha => absurd ha hb) hgood

theorem findFrom_skip_at {cs name : List Char} {pos : Nat} {d : Int}
    (hp : pos < cs.length)
    (h1 : isClosingTagAt cs pos name = false)
    (h2 : isSameOpeningTagAt cs pos name = false) :
    findClosingTagGo cs name (cs.length + 1) pos d =
      findClosingTagGo cs name (cs.length + 1) (pos + 1) d := by
  rw [show cs.length + 1 = (cs.length) + 1 from rfl, findClosingTagGo,
    if_pos hp]
  have step : ∀ x : Option Nat, x = x := fun _ => rfl
  by_cases hb : (currentChar cs pos == '[') = true
  · rw [if_pos hb, h1]
    simp only [Bool.false_eq_true, if_false, h2]
    exact findClosingTagGo_fuel cs.length (cs.length + 1) (pos + 1) d
      (by omega) (by omega)
  · rw [if_neg hb]
    exact findClosingTagGo_fuel cs.length (cs.length + 1) (pos + 1) d
      (by omega) (by omega)

theorem findFrom_skip_text {cs name : List Char} :
    ∀ (X : List Char) (p : Nat) (R : List Char) (d : Int),
      cs.drop p = X ++ R → p + X.length ≤ cs.length →
      (∀ c ∈ X, c ≠ '[') →
      findClosingTagGo cs name (cs.length + 1) p d =
        findClosingTagGo cs name (cs.length + 1) (p + X.length) d := by
  intro X
  induction X with
  | nil => intro p R d _ _ _; rfl
  | cons x xs ih =>
    intro p R d hd hlen hX
    have hcur : currentChar cs p = x := by
      have : currentChar (cs.drop p) 0 = currentChar cs p := by
        rw [currentChar_drop, Nat.add_zero]
      rw [← this, hd]
      rfl
    have hnb : currentChar cs p ≠ '[' := by
      rw [hcur]
      exact hX x (by simp)
    have hstep := @findFrom_skip_at cs name p d (by simp at hlen ⊢; omega)
      (isClosingTagAt_false_of_not_bracket name hnb)
      (isSameOpeningTagAt_false_of_not_bracket name hnb)
    rw [hstep]
    have hd1 : cs.drop (p + 1) = xs ++ R := by
      rw [show p + 1 = p + 1 from rfl, ← List.drop_drop, hd]
      rfl
    have := ih (p + 1) R d hd1 (by simp at hlen ⊢; omega)
      (fun c hc => hX c (by simp [hc]))
    rw [this, show p + 1 + xs.length = p + (x :: xs).length by simp; omega]

theorem findFrom_hit {cs name : List Char} {pos : Nat}
    (hp : pos < cs.length)
    (h1 : isClosingTagAt cs pos name = true) :
    findClosingTagGo cs name (cs.length + 1) pos 1 = some pos := by
  rw [findClosingTagGo, if_pos hp, if_pos (isClosingTagAt_bracket h1), h1]
  simp

/-! ### Fuel irrelevance for the parser -/

theorem optMapList_congr {g g' : List Char → Option (List Char)} :
    ∀ {l : List (List Char)}, (∀ a ∈ l, g a = g' a) →
      optMapList g l = optMapList g' l := by
  intro l
  induction l with
  | nil => intro _; rfl
  | cons a t ih =>
    intro h
    rw [optMapList, optMapList, h a (by simp),
      ih (fun x hx => h x (by simp [hx]))]

theorem optMapRows_congr {g g' : List Char → Option (List (List Char))} :
    ∀ {l : List (List Char)}, (∀ a ∈ l, g a = g' a) →
      optMapRows g l = optMapRows g' l := by
  intro l
  induction l with
  | nil => intro _; rfl
  | cons a t ih =>
    intro h
    rw [optMapRows, optMapRows, h a (by simp),
      ih (fun x hx => h x (by simp [hx]))]

theorem formatTableWith_congr {pr pr' : List Char → Option (List Char)}
    {content : List Char}
    (h : ∀ c : List Char, c.length ≤ content.length → pr c = pr' c) :
    formatTableWith pr content = formatTableWith pr' content := by
  unfold formatTableWith
  split
  · rfl
  · rw [optMapRows_congr (fun m hm => optMapList_congr (fun cell hcell => by
      rw [h cell
        (le_trans (tdCaptures_length_le hcell) (trMatches_length_le hm))]))]

theorem renderTagWith_congr {pr pr' : List Char → Option (List Char)}
    {tag : BBCodeTag} {content : List Char}
    (h : ∀ c : List Char, c.length ≤ content.length → pr c = pr' c) :
    renderTagWith pr tag content = renderTagWith pr' tag content := by
  have hself := h content le_rfl
  unfold renderTagWith
  split
  · rw [formatTableWith_congr h]
  · split
    · rw [hself]
    · rw [hself]
    · rw [hself]
    · split <;> rw [hself]

theorem parseF_fuel :
    ∀ (f g : Nat) (cs : List Char) (pos : Nat), cs.length - pos < f →
      cs.length - pos < g → parseF f cs pos = parseF g cs pos := by
  intro f
  induction f with
  | zero => intro g cs pos h _; omega
  | succ f ih =>
    intro g cs pos h hg
    cases g with
    | zero => omega
    | succ g =>
      rw [parseF, parseF]
      split
      · rename_i hp
        split
        · split
          · rename_i tt tag tagEnd hpo
            obtain ⟨hb1, hb2⟩ := parseOpeningTagAt_bounds hpo
            split
            · rw [ih g cs tagEnd (by omega) (by omega)]
            · split
              · rename_i hnsc contentEnd hfc
                obtain ⟨hc1, hc2⟩ := findClosingTag_bounds hfc
                have hskip : contentEnd ≤ skipClosingTagAt cs contentEnd :=
                  skipClosingTagAt_ge (by omega)
                have hext := extractContent_length cs tagEnd contentEnd
                have hrw : renderTagWith (fun c => parseF f c 0) tag
                    (extractContent cs tagEnd contentEnd) =
                      renderTagWith (fun c => parseF g c 0) tag
                        (extractContent cs tagEnd contentEnd) :=
                  renderTagWith_congr
                    (fun c hc => ih g c 0 (by omega) (by omega))
                rw [hrw, ih g cs (skipClosingTagAt cs contentEnd)
                  (by omega) (by omega)]
              · rw [ih g cs tagEnd (by omega) (by omega)]
          · rw [ih g cs (pos + 1) (by omega) (by omega)]
        · rw [ih g cs (pos + 1) (by omega) (by omega)]
      · rfl

/-! ### Step lemmas for the parsing loop -/

/-- The parse of `cs` from cursor `pos`, with always-sufficient fuel. -/
def parseFrom (cs : List Char) (pos : Nat) : List Char :=
  (parseF (cs.length + 1) cs pos).getD []

theorem bbParse_eq_parseFrom (cs : List Char) : bbParse cs = parseFrom cs 0 :=
  rfl

/-- The `Option`-valued whole-string parse (the `pr` argument that
`renderTagWith` effectively receives once fuel is normalised). -/
def parseRunOpt (c : List Char) : Option (List Char) :=
  parseF (c.length + 1) c 0

theorem parseRunOpt_eq (c : List Char) : parseRunOpt c = some (bbParse c) := by
  obtain ⟨r, hr⟩ := Option.isSome_iff_exists.mp
    (parseF_isSome (c.length + 1) c 0 (by omega))
  unfold parseRunOpt bbParse
  rw [hr]
  rfl

theorem parseF_succ_end (f : Nat) {cs : List Char} {pos : Nat}
    (h : cs.length ≤ pos) : parseF (f + 1) cs pos = some [] := by
  rw [parseF, if_neg (by omega)]

theorem parseFrom_end {cs : List Char} {pos : Nat} (h : cs.length ≤ pos) :
    parseFrom cs pos = [] := by
  unfold parseFrom
  rw [parseF_succ_end cs.length h]
  rfl

theorem parseF_succ_char (f : Nat) {cs : List Char} {pos : Nat}
    (h : pos < cs.length) (ho : isOpeningTag cs pos = false) :
    parseF (f + 1) cs pos =
      (parseF f cs (pos + 1)).map (fun r => currentChar cs pos :: r) := by
  rw [parseF, if_pos h]
  simp only [ho, Bool.false_eq_true, if_false]

theorem parseFrom_char {cs : List Char} {pos : Nat}
    (h : pos < cs.length) (ho : isOpeningTag cs pos = false) :
    parseFrom cs pos = currentChar cs pos :: parseFrom cs (pos + 1) := by
  unfold parseFrom
  rw [parseF_succ_char cs.length h ho,
    parseF_fuel cs.length (cs.length + 1) cs (pos + 1) (by omega) (by omega)]
  obtain ⟨r, hr⟩ := Option.isSome_iff_exists.mp
    (parseF_isSome (cs.length + 1) cs (pos + 1) (by omega))
  rw [hr]
  rfl

theorem parseFrom_text {cs : List Char} :
    ∀ (X : List Char) (p : Nat) (R : List Char), cs.drop p = X ++ R →
      p + X.length ≤ cs.length → (∀ c ∈ X, c ≠ '[') →
      parseFrom cs p = X ++ parseFrom cs (p + X.length) := by
  intro X
  induction X with
  | nil => intro p R _ _ _; simp
  | cons x xs ih =>
    intro p R hd hlen hX
    have hcur : currentChar cs p = x := by
      have h0 : currentChar (cs.drop p) 0 = currentChar cs p := by
        rw [currentChar_drop, Nat.add_zero]
      rw [← h0, hd]
      rfl
    have hnb : currentChar cs p ≠ '[' := by
      rw [hcur]
      exact hX x (by simp)
    have hp : p < cs.length := by
      simp only [List.length_cons] at hlen
      omega
    rw [parseFrom_char hp (isOpeningTag_false_of_not_bracket hnb), hcur]
    have hd1 : cs.drop (p + 1) = xs ++ R := by
      rw [← List.drop_drop 1 p cs, hd]
      rfl
    rw [ih (p + 1) R hd1
      (by simp only [List.length_cons] at hlen; omega)
      (fun c hc => hX c (by simp [hc]))]
    have harith : p + 1 + xs.length = p + (x :: xs).length := by
      show p + 1 + xs.length = p + (xs.length + 1)
      omega
    rw [harith]
    simp only [List.cons_append]

theorem bbParse_text {s : List Char} (h : ∀ c ∈ s, c ≠ '[') : bbParse s = s := by
  rw [bbParse_eq_parseFrom,
    parseFrom_text s 0 [] (by simp) (by simp) h,
    parseFrom_end (by simp)]
  simp

theorem parseF_succ_tag (f : Nat) {cs : List Char} {pos : Nat}
    {tag : BBCodeTag} {tagEnd contentEnd : Nat}
    (h : pos < cs.length)
    (ho : isOpeningTag cs pos = true)
    (hpo : parseOpeningTagAt cs pos = some (tag, tagEnd))
    (hsc : tag.isSelfClosing = false)
    (hfc : findClosingTag cs tag.baseName tagEnd = some contentEnd)
    (hsrm : tag.shouldRemoveContent = false) :
    parseF (f + 1) cs pos =
      (match renderTagWith (fun c => parseF f c 0) tag
          (extractContent cs tagEnd contentEnd) with
      | some rendered =>
        (parseF f cs (skipClosingTagAt cs contentEnd)).map
          (fun rest => rendered ++ rest)
      | none => none) := by
  rw [parseF, if_pos h, if_pos ho]
  simp only [hpo, hsc, hfc, hsrm, Bool.false_eq_true, if_false]

theorem parseFrom_tag {cs : List Char} {pos : Nat} {tag : BBCodeTag}
    {tagEnd contentEnd : Nat} {rt : List Char}
    (ho : isOpeningTag cs pos = true)
    (hpo : parseOpeningTagAt cs pos = some (tag, tagEnd))
    (hsc : tag.isSelfClosing = false)
    (hfc : findClosingTag cs tag.baseName tagEnd = some contentEnd)
    (hsrm : tag.shouldRemoveContent = false)
    (hrt : renderTagWith parseRunOpt tag
        (extractContent cs tagEnd contentEnd) = some rt) :
    parseFrom cs pos = rt ++ parseFrom cs (skipClosingTagAt cs contentEnd) := by
  obtain ⟨hb1, hb2⟩ := parseOpeningTagAt_bounds hpo
  obtain ⟨hc1, hc2⟩ := findClosingTag_bounds hfc
  have hp : pos < cs.length := by omega
  have hskip := @skipClosingTagAt_ge cs contentEnd (by omega)
  unfold parseFrom
  rw [parseF_succ_tag cs.length hp ho hpo hsc hfc hsrm]
  have hext := extractContent_length cs tagEnd contentEnd
  have hcongr : renderTagWith (fun c => parseF cs.length c 0) tag
      (extractContent cs tagEnd contentEnd) =
        renderTagWith parseRunOpt tag
          (extractContent cs tagEnd contentEnd) :=
    renderTagWith_congr (fun c hc =>
      parseF_fuel cs.length (c.length + 1) c 0 (by omega) (by omega))
  rw [hcongr]
  simp only [hrt]
  rw [parseF_fuel cs.length (cs.length + 1) cs
    (skipClosingTagAt cs contentEnd) (by omega) (by omega)]
  obtain ⟨rest, hrest⟩ := Option.isSome_iff_exists.mp
    (parseF_isSome (cs.length + 1) cs (skipClosingTagAt cs contentEnd)
      (by omega))
  rw [hrest]
  rfl

/-! ### Local computations on concrete tag shapes -/

theorem parseOpeningTagAt_single (t : Char) (tag : BBCodeTag)
    (Rest : List Char) (ht1 : (t == ']') = false)
    (hparse : BBCodeTag.parse [t] = some tag) :
    parseOpeningTagAt ('[' :: t :: ']' :: Rest) 0 = some (tag, 3) := by
  unfold parseOpeningTagAt
  rw [if_pos (by simp [currentChar])]
  simp [firstIdx, ht1, hparse]

theorem isClosingTagAt_single (t : Char) (name : List Char)
    (Rest : List Char) (ht1 : (t == ']') = false) :
    isClosingTagAt ('[' :: '/' :: t :: ']' :: Rest) 0 name =
      eqIgnoreAsciiCase [t] name := by
  unfold isClosingTagAt
  rw [if_neg (by simp)]
  rw [if_neg (by simp [currentChar])]
  simp [firstIdx, ht1]

theorem isClosingTagAt_false_of_snd {cs : List Char} {pos : Nat}
    (name : List Char) (h : currentChar cs (pos + 1) ≠ '/') :
    isClosingTagAt cs pos name = false := by
  unfold isClosingTagAt
  split
  · rfl
  · rw [if_pos (by simp [h])]

theorem bbtag_parse_slash (t : Char) : BBCodeTag.parse ['/', t] = none := rfl

theorem skipClosingTagAt_single {cs : List Char} {pos : Nat} {t : Char}
    {R : List Char} (hd : cs.drop pos = '[' :: '/' :: t :: ']' :: R)
    (ht1 : (t == ']') = false) :
    skipClosingTagAt cs pos = pos + 4 := by
  have hp : pos < cs.length := by
    have := congrArg List.length hd
    rw [List.length_drop] at this
    simp at this
    omega
  have hcur : currentChar cs pos = '[' := by
    have h0 : currentChar (cs.drop pos) 0 = currentChar cs pos := by
      rw [currentChar_drop, Nat.add_zero]
    rw [← h0, hd]
    rfl
  unfold skipClosingTagAt
  rw [if_pos (by simp [hp, hcur]), hd]
  simp [firstIdx, ht1]

theorem isSameOpeningTagAt_slash {cs : List Char} {pos : Nat} {t : Char}
    {R : List Char} (name : List Char)
    (hd : cs.drop pos = '[' :: '/' :: t :: ']' :: R)
    (ht1 : (t == ']') = false) :
    isSameOpeningTagAt cs pos name = false := by
  rw [isSameOpeningTagAt_shift, hd]
  unfold isSameOpeningTagAt
  unfold parseOpeningTagAt
  rw [if_pos (by simp [currentChar])]
  simp [firstIdx, ht1, bbtag_parse_slash]

theorem isSameOpeningTagAt_single {cs : List Char} {pos : Nat} {t : Char}
    {tag : BBCodeTag} {R : List Char} (name : List Char)
    (hd : cs.drop pos = '[' :: t :: ']' :: R)
    (ht1 : (t == ']') = false)
    (hparse : BBCodeTag.parse [t] = some tag) :
    isSameOpeningTagAt cs pos name = (tag.baseName == name) := by
  rw [isSameOpeningTagAt_shift, hd]
  unfold isSameOpeningTagAt
  rw [parseOpeningTagAt_single t tag R ht1 hparse]

theorem isClosingTagAt_shift_single {cs : List Char} {pos : Nat} {t : Char}
    {R : List Char} (name : List Char)
    (hd : cs.drop pos = '[' :: '/' :: t :: ']' :: R)
    (ht1 : (t == ']') = false) :
    isClosingTagAt cs pos name = eqIgnoreAsciiCase [t] name := by
  rw [isClosingTagAt_shift, hd, isClosingTagAt_single t name R ht1]

/-- One full tag step of the loop, for an opener `[t]` with matched closer
`[/t]` around `Inner` at position `p`. -/
theorem parseFrom_single_tag {cs : List Char} {p : Nat} {t : Char}
    {tag : BBCodeTag} {Inner R rt : List Char}
    (hd : cs.drop p = '[' :: t :: ']' ::
      (Inner ++ ('[' :: '/' :: t :: ']' :: R)))
    (ht1 : (t == ']') = false) (ht2 : (t == '/') = false)
    (hparse : BBCodeTag.parse [t] = some tag)
    (hsc : tag.isSelfClosing = false)
    (hsrm : tag.shouldRemoveContent = false)
    (hfc : findClosingTag cs tag.baseName (p + 3) = some (p + 3 + Inner.length))
    (hrt : renderTagWith parseRunOpt tag Inner = some rt) :
    parseFrom cs p = rt ++ parseFrom cs (p + 3 + Inner.length + 4) := by
  have hcur0 : currentChar cs p = '[' := by
    have h0 : currentChar (cs.drop p) 0 = currentChar cs p := by
      rw [currentChar_drop, Nat.add_zero]
    rw [← h0, hd]
    rfl
  have hcur1 : currentChar cs (p + 1) = t := by
    have h1 : currentChar (cs.drop p) 1 = currentChar cs (p + 1) := by
      rw [currentChar_drop]
    rw [← h1, hd]
    rfl
  have ht2' : t ≠ '/' := by
    intro heq
    rw [heq] at ht2
    simp at ht2
  have ho : isOpeningTag cs p = true := by
    unfold isOpeningTag
    rw [hcur0, hcur1]
    simp [ht2']
  have hpo : parseOpeningTagAt cs p = some (tag, p + 3) := by
    rw [parseOpeningTagAt_shift, hd,
      parseOpeningTagAt_single t tag _ ht1 hparse]
    simp only [Option.map_some']
    rw [show 3 + p = p + 3 by omega]
  have hd3 : cs.drop (p + 3) = Inner ++ ('[' :: '/' :: t :: ']' :: R) := by
    rw [← List.drop_drop 3 p cs, hd]
    rfl
  have hext : extractContent cs (p + 3) (p + 3 + Inner.length) = Inner := by
    unfold extractContent
    rw [hd3, show p + 3 + Inner.length - (p + 3) = Inner.length by omega,
      List.take_left Inner _]
  have hdClose : cs.drop (p + 3 + Inner.length) =
      '[' :: '/' :: t :: ']' :: R := by
    rw [← List.drop_drop Inner.length (p + 3) cs, hd3, List.drop_left Inner _]
  have hskip : skipClosingTagAt cs (p + 3 + Inner.length) =
      p + 3 + Inner.length + 4 :=
    skipClosingTagAt_single hdClose ht1
  have := parseFrom_tag ho hpo hsc hfc hsrm (by rw [hext]; exact hrt)
  rw [this, hskip]

theorem renderTagWith_simple_b (pr : List Char → Option (List Char))
    (content : List Char) :
    renderTagWith pr (.Simple 0) content =
      (pr content).map (fun q => '<' :: 'b' :: '>' ::
        (q ++ ['<', '/', 'b', '>'])) := by
  unfold renderTagWith
  rw [if_neg (by decide)]
  rw [if_neg (by decide)]
  cases pr content with
  | none => rfl
  | some q => simp [BBCodeTag.toHtmlOpen, BBCodeTag.toHtmlClose, BBCodeTag.tagDef, TAG_REGISTRY]

theorem renderTagWith_simple_i (pr : List Char → Option (List Char))
    (content : List Char) :
    renderTagWith pr (.Simple 1) content =
      (pr content).map (fun q => '<' :: 'i' :: '>' ::
        (q ++ ['<', '/', 'i', '>'])) := by
  unfold renderTagWith
  rw [if_neg (by decide)]
  rw [if_neg (by decide)]
  cases pr content with
  | none => rfl
  | some q =>
    simp [BBCodeTag.toHtmlOpen, BBCodeTag.toHtmlClose, BBCodeTag.tagDef,
      TAG_REGISTRY]

theorem bbParse_inner (A B C : List Char)
    (hA : ∀ c ∈ A, c ≠ '[') (hB : ∀ c ∈ B, c ≠ '[')
    (hC : ∀ c ∈ C, c ≠ '[') :
    bbParse (A ++ ('[' :: 'i' :: ']' ::
        (B ++ ('[' :: '/' :: 'i' :: ']' :: C)))) =
      A ++ ('<' :: 'i' :: '>' :: (B ++ ('<' :: '/' :: 'i' :: '>' :: C))) := by
  set M := A ++ ('[' :: 'i' :: ']' :: (B ++ ('[' :: '/' :: 'i' :: ']' :: C)))
    with hM
  have hlenM : M.length = A.length + 3 + B.length + 4 + C.length := by
    rw [hM]
    simp
    omega
  have hdA : M.drop A.length =
      '[' :: 'i' :: ']' :: (B ++ ('[' :: '/' :: 'i' :: ']' :: C)) := by
    rw [hM]
    exact List.drop_left A _
  have hdA3 : M.drop (A.length + 3) = B ++ ('[' :: '/' :: 'i' :: ']' :: C) := by
    rw [← List.drop_drop 3 A.length M, hdA]
    rfl
  have hdAB : M.drop (A.length + 3 + B.length) =
      '[' :: '/' :: 'i' :: ']' :: C := by
    rw [← List.drop_drop B.length (A.length + 3) M, hdA3, List.drop_left B _]
  have hdC : M.drop (A.length + 3 + B.length + 4) = C := by
    rw [← List.drop_drop 4 (A.length + 3 + B.length) M, hdAB]
    rfl
  have hfc : findClosingTag M (BBCodeTag.Simple 1).baseName (A.length + 3) =
      some (A.length + 3 + B.length) := by
    unfold findClosingTag
    rw [findFrom_skip_text B (A.length + 3) _ 1 hdA3 (by omega) hB]
    exact findFrom_hit (by omega)
      (by rw [isClosingTagAt_shift_single _ hdAB (by decide)]; decide)
  have hrt : renderTagWith parseRunOpt (.Simple 1) B =
      some ('<' :: 'i' :: '>' :: (B ++ ['<', '/', 'i', '>'])) := by
    rw [renderTagWith_simple_i, parseRunOpt_eq, bbParse_text hB]
    rfl
  have h2 := parseFrom_single_tag hdA (by decide) (by decide) (by decide)
    (by decide) (by decide) hfc hrt
  have h1 : parseFrom M 0 = A ++ parseFrom M (0 + A.length) :=
    parseFrom_text A 0 _ (by rw [List.drop_zero]) (by omega) hA
  rw [show (0 + A.length) = A.length by omega] at h1
  have h3 : parseFrom M (A.length + 3 + B.length + 4) =
      C ++ parseFrom M (A.length + 3 + B.length + 4 + C.length) :=
    parseFrom_text C _ [] (by rw [hdC]; simp) (by omega) hC
  have h4 : parseFrom M (A.length + 3 + B.length + 4 + C.length) = [] :=
    parseFrom_end (by omega)
  rw [bbParse_eq_parseFrom, h1, h2, h3, h4]
  simp [List.cons_append, List.append_assoc]

/-- The full nested-tag instance: `[b]A[i]B[/i]C[/b]` renders as
`<b>A<i>B</i>C</b>` for arbitrary bracket-free segments `A`, `B`, `C`. -/
theorem bbParse_nested_bi (A B C : List Char)
    (hA : ∀ c ∈ A, c ≠ '[') (hB : ∀ c ∈ B, c ≠ '[')
    (hC : ∀ c ∈ C, c ≠ '[') :
    bbParse ('[' :: 'b' :: ']' ::
        ((A ++ ('[' :: 'i' :: ']' ::
            (B ++ ('[' :: '/' :: 'i' :: ']' :: C)))) ++
          ('[' :: '/' :: 'b' :: ']' :: []))) =
      '<' :: 'b' :: '>' ::
        ((A ++ ('<' :: 'i' :: '>' ::
            (B ++ ('<' :: '/' :: 'i' :: '>' :: C)))) ++
          ('<' :: '/' :: 'b' :: '>' :: [])) := by
  set M := A ++ ('[' :: 'i' :: ']' :: (B ++ ('[' :: '/' :: 'i' :: ']' :: C)))
    with hM
  set cs := '[' :: 'b' :: ']' :: (M ++ ('[' :: '/' :: 'b' :: ']' :: []))
    with hcs
  have hlenM : M.length = A.length + 3 + B.length + 4 + C.length := by
    rw [hM]
    simp only [List.length_append, List.length_cons]
    omega
  have hlen : cs.length = M.length + 7 := by
    rw [hcs]
    simp only [List.length_append, List.length_cons, List.length_nil]
  have hd0 : cs.drop 0 =
      '[' :: 'b' :: ']' :: (M ++ ('[' :: '/' :: 'b' :: ']' :: [])) := by
    rw [List.drop_zero]
  have hd3 : cs.drop 3 = A ++ ('[' :: 'i' :: ']' ::
      (B ++ ('[' :: '/' :: 'i' :: ']' ::
        (C ++ ('[' :: '/' :: 'b' :: ']' :: []))))) := by
    rw [hcs]
    show M ++ ('[' :: '/' :: 'b' :: ']' :: []) = _
    rw [hM]
    simp [List.append_assoc]
  have hdA : cs.drop (3 + A.length) = '[' :: 'i' :: ']' ::
      (B ++ ('[' :: '/' :: 'i' :: ']' ::
        (C ++ ('[' :: '/' :: 'b' :: ']' :: [])))) := by
    rw [← List.drop_drop A.length 3 cs, hd3, List.drop_left A _]
  have hdA1 : cs.drop (3 + A.length + 1) = ['i', ']'] ++
      (B ++ ('[' :: '/' :: 'i' :: ']' ::
        (C ++ ('[' :: '/' :: 'b' :: ']' :: [])))) := by
    rw [← List.drop_drop 1 (3 + A.length) cs, hdA]
    rfl
  have hdA3 : cs.drop (3 + A.length + 3) =
      B ++ ('[' :: '/' :: 'i' :: ']' ::
        (C ++ ('[' :: '/' :: 'b' :: ']' :: []))) := by
    rw [← List.drop_drop 3 (3 + A.length) cs, hdA]
    rfl
  have hdB : cs.drop (3 + A.length + 3 + B.length) =
      '[' :: '/' :: 'i' :: ']' :: (C ++ ('[' :: '/' :: 'b' :: ']' :: [])) := by
    rw [← List.drop_drop B.length (3 + A.length + 3) cs, hdA3,
      List.drop_left B _]
  have hdB1 : cs.drop (3 + A.length + 3 + B.length + 1) = ['/', 'i', ']'] ++
      (C ++ ('[' :: '/' :: 'b' :: ']' :: [])) := by
    rw [← List.drop_drop 1 (3 + A.length + 3 + B.length) cs, hdB]
    rfl
  have hdB4 : cs.drop (3 + A.length + 3 + B.length + 4) =
      C ++ ('[' :: '/' :: 'b' :: ']' :: []) := by
    rw [← List.drop_drop 4 (3 + A.length + 3 + B.length) cs, hdB]
    rfl
  have hdC : cs.drop (3 + A.length + 3 + B.length + 4 + C.length) =
      '[' :: '/' :: 'b' :: ']' :: [] := by
    rw [← List.drop_drop C.length (3 + A.length + 3 + B.length + 4) cs, hdB4,
      List.drop_left C _]
  have hcuri : currentChar cs (3 + A.length + 1) = 'i' := by
    rw [← currentChar_drop, hdA]
    rfl
  have hfcgo : findClosingTagGo cs (BBCodeTag.Simple 0).baseName
      (cs.length + 1) 3 1 =
      some (3 + A.length + 3 + B.length + 4 + C.length) := by
    rw [findFrom_skip_text A 3 _ 1 hd3 (by rw [hlen, hlenM]; omega) hA]
    rw [@findFrom_skip_at cs (BBCodeTag.Simple 0).baseName (3 + A.length) 1
      (by rw [hlen, hlenM]; omega)
      (isClosingTagAt_false_of_snd _ (by rw [hcuri]; decide))
      (by
        rw [isSameOpeningTagAt_single _ hdA (by decide)
          (show BBCodeTag.parse ['i'] = some (.Simple 1) from by decide)]
        decide)]
    rw [findFrom_skip_text ['i', ']'] (3 + A.length + 1) _ 1 hdA1
      (by rw [hlen, hlenM]; simp only [List.length_cons, List.length_nil]
          omega)
      (by decide)]
    rw [show 3 + A.length + 1 + (['i', ']'] : List Char).length =
        3 + A.length + 3 by
      simp only [List.length_cons, List.length_nil]]
    rw [findFrom_skip_text B (3 + A.length + 3) _ 1 hdA3
      (by rw [hlen, hlenM]; omega) hB]
    rw [@findFrom_skip_at cs (BBCodeTag.Simple 0).baseName
      (3 + A.length + 3 + B.length) 1
      (by rw [hlen, hlenM]; omega)
      (by rw [isClosingTagAt_shift_single _ hdB (by decide)]; decide)
      (isSameOpeningTagAt_slash _ hdB (by decide))]
    rw [findFrom_skip_text ['/', 'i', ']'] (3 + A.length + 3 + B.length + 1)
      _ 1 hdB1
      (by rw [hlen, hlenM]; simp only [List.length_cons, List.length_nil]
          omega)
      (by decide)]
    rw [show 3 + A.length + 3 + B.length + 1 +
        (['/', 'i', ']'] : List Char).length =
        3 + A.length + 3 + B.length + 4 by
      simp only [List.length_cons, List.length_nil]]
    rw [findFrom_skip_text C (3 + A.length + 3 + B.length + 4) _ 1 hdB4
      (by rw [hlen, hlenM]; omega) hC]
    exact findFrom_hit (by rw [hlen, hlenM]; omega)
      (by rw [isClosingTagAt_shift_single _ hdC (by decide)]; decide)
  have hfc : findClosingTag cs (BBCodeTag.Simple 0).baseName (0 + 3) =
      some (0 + 3 + M.length) := by
    have h := hfcgo
    rw [show 3 + A.length + 3 + B.length + 4 + C.length =
        0 + 3 + M.length by rw [hlenM]; omega] at h
    exact h
  have hrt : renderTagWith parseRunOpt (.Simple 0) M =
      some ('<' :: 'b' :: '>' ::
        ((A ++ ('<' :: 'i' :: '>' ::
            (B ++ ('<' :: '/' :: 'i' :: '>' :: C)))) ++
          ['<', '/', 'b', '>'])) := by
    rw [renderTagWith_simple_b, parseRunOpt_eq, hM,
      bbParse_inner A B C hA hB hC]
    rfl
  have hmain := parseFrom_single_tag hd0 (by decide) (by decide)
    (show BBCodeTag.parse ['b'] = some (.Simple 0) from by decide)
    (by decide) (by decide) hfc hrt
  have hend : parseFrom cs (0 + 3 + M.length + 4) = [] :=
    parseFrom_end (by rw [hlen]; omega)
  rw [bbParse_eq_parseFrom, hmain, hend]
  simp

set_option maxRecDepth 8000 in
/-- C6: depth-counted closing-tag matching.  For every bracket-free
segments `A`, `B`, `C`, the nested input `[b]A[i]B[/i]C[/b]` renders as
`<b>A<i>B</i>C</b>`, with closing order mirroring opening order; moreover
a same-name tag nested in itself is matched to the outer closer (on
`[quote]x[quote]y[/quote]z[/quote]`, scanning for the closer of the outer
`quote` from position 7 skips the inner `[/quote]` at 16 and returns 25). -/
theorem c6_depth_counted_nesting :
    (∀ A B C : List Char,
      (∀ c ∈ A, c ≠ '[') → (∀ c ∈ B, c ≠ '[') → (∀ c ∈ C, c ≠ '[') →
      bbParse ("[b]".toList ++ A ++ "[i]".toList ++ B ++ "[/i]".toList ++
          C ++ "[/b]".toList) =
        "<b>".toList ++ A ++ "<i>".toList ++ B ++ "</i>".toList ++
          C ++ "</b>".toList) ∧
      bbParse "[b]A[i]B[/i]C[/b]".toList = "<b>A<i>B</i>C</b>".toList ∧
      bbParse "[quote]x[quote]y[/quote]z[/quote]".toList =
        "<blockquote>x<blockquote>y</blockquote>z</blockquote>".toList ∧
      findClosingTag "[quote]x[quote]y[/quote]z[/quote]".toList
          "quote".toList 7 = some 25 ∧
      bbParse "[b][u]M[/u][/b]".toList = "<b><u>M</u></b>".toList := by
  refine ⟨?_, by decide, by decide, by decide, by decide⟩
  intro A B C hA hB hC
  have h := bbParse_nested_bi A B C hA hB hC
  have e1 : "[b]".toList ++ A ++ "[i]".toList ++ B ++ "[/i]".toList ++
      C ++ "[/b]".toList =
      '[' :: 'b' :: ']' ::
        ((A ++ ('[' :: 'i' :: ']' ::
            (B ++ ('[' :: '/' :: 'i' :: ']' :: C)))) ++
          ('[' :: '/' :: 'b' :: ']' :: [])) := by
    show ['[', 'b', ']'] ++ A ++ ['[', 'i', ']'] ++ B ++
        ['[', '/', 'i', ']'] ++ C ++ ['[', '/', 'b', ']'] = _
    simp [List.append_assoc]
  have e2 : "<b>".toList ++ A ++ "<i>".toList ++ B ++ "</i>".toList ++
      C ++ "</b>".toList =
      '<' :: 'b' :: '>' ::
        ((A ++ ('<' :: 'i' :: '>' ::
            (B ++ ('<' :: '/' :: 'i' :: '>' :: C)))) ++
          ('<' :: '/' :: 'b' :: '>' :: [])) := by
    show ['<', 'b', '>'] ++ A ++ ['<', 'i', '>'] ++ B ++
        ['<', '/', 'i', '>'] ++ C ++ ['<', '/', 'b', '>'] = _
    simp [List.append_assoc]
  rw [e1, e2]
  exact h

/-- C6 witness: the universal nested-rendering statement instantiated at
`A = "x"`, `B = "y"`, `C = "z"`. -/
theorem c6_witness :
    bbParse ("[b]".toList ++ "x".toList ++ "[i]".toList ++ "y".toList ++
        "[/i]".toList ++ "z".toList ++ "[/b]".toList) =
      "<b>".toList ++ "x".toList ++ "<i>".toList ++ "y".toList ++
        "</i>".toList ++ "z".toList ++ "</b>".toList :=
  c6_depth_counted_nesting.1 "x".toList "y".toList "z".toList
    (by decide) (by decide) (by decide)

end Rustgbot
